import Mathlib

/-!
Verification of mheily/mosaicfs against its specification.

This file shallowly embeds the Rust sources of the repository in Lean 4 and
proves (or refutes) the frozen claims about them.  Machine integers (`u64`,
`i64`) are modelled as `Nat`/`Int`; the repository's arithmetic on them never
overflows on the values the proofs quantify over, and where Rust would panic
(underflow) the embedding notes it.  External effects (filesystem, network,
clocks, databases) are passed in explicitly as oracle parameters.

Part 1: `BlockMap` from src/mosaicfs-vfs/src/block_map.rs.
-/
/-- BlockMap from block_map.rs: a sorted `Vec<Range<u64>>` of present byte
intervals, each range represented as a pair `(start, end)`. -/
structure BlockMap where
  intervals : List (Nat × Nat)
deriving Repr, DecidableEq

/-- Loop of Rust core's `slice::binary_search_by`: probes `mid = left +
(right - left) / 2` until `left = right`, returning `Sum.inl mid` for
`Ordering.eq` (Rust `Ok(mid)`) and `Sum.inr left` at exhaustion (Rust
`Err(left)`).  `fuel` only bounds the recursion; `length + 1` is always
enough since `right - left` strictly decreases. -/
def bsLoop (cmp : Nat → Ordering) : Nat → Nat → Nat → Nat ⊕ Nat
  | 0, left, _ => Sum.inr left
  | fuel + 1, left, right =>
    if left < right then
      let mid := left + (right - left) / 2
      match cmp mid with
      | Ordering.lt => bsLoop cmp fuel (mid + 1) right
      | Ordering.gt => bsLoop cmp fuel left mid
      | Ordering.eq => Sum.inl mid
    else Sum.inr left

/-- Rust `self.intervals.binary_search_by(|r| r.start.cmp(&new.start))`,
specialized to comparing interval starts against `key`. -/
def bsearchStart (l : List (Nat × Nat)) (key : Nat) : Nat ⊕ Nat :=
  bsLoop (fun i => compare (l.getD i (0, 0)).1 key) (l.length + 1) 0 l.length

/-- Merge-scan loop of `BlockMap::insert` (block_map.rs lines 114-125):
walks every interval with its index `i`, skipping those with
`range.end < merged_start || range.start > merged_end` and folding the rest
into `(merged_start, merged_end, first, last)`. -/
def insLoop : List (Nat × Nat) → Nat → Nat → Nat → Nat → Nat → Nat × Nat × Nat × Nat
  | [], _, ms, me, first, last => (ms, me, first, last)
  | r :: rest, i, ms, me, first, last =>
    if r.2 < ms ∨ r.1 > me then
      insLoop rest (i + 1) ms me first last
    else
      insLoop rest (i + 1) (min ms r.1) (max me r.2) (min first i) (i + 1)

/-- `BlockMap::insert`: ignore empty ranges; merge with every overlapping or
adjacent interval, replacing `intervals[first..last]` by the merged range, or
insert at the position found by binary search when nothing merged. -/
def BlockMap.insert (bm : BlockMap) (new : Nat × Nat) : BlockMap :=
  if new.2 ≤ new.1 then bm
  else
    let res := insLoop bm.intervals 0 new.1 new.2 bm.intervals.length 0
    let ms := res.1
    let me := res.2.1
    let first := res.2.2.1
    let last := res.2.2.2
    if last ≤ first then
      let pos :=
        match bsearchStart bm.intervals new.1 with
        | Sum.inl i => i
        | Sum.inr p => p
      ⟨bm.intervals.take pos ++ [new] ++ bm.intervals.drop pos⟩
    else
      ⟨bm.intervals.take first ++ [(ms, me)] ++ bm.intervals.drop last⟩

/-- `BlockMap::range_present`: an empty query is vacuously present, otherwise
some stored interval must contain the whole query. -/
def BlockMap.range_present (bm : BlockMap) (q : Nat × Nat) : Bool :=
  if q.2 ≤ q.1 then true
  else bm.intervals.any fun r => r.1 ≤ q.1 && q.2 ≤ r.2

/-- Loop of `BlockMap::missing_ranges` (block_map.rs lines 84-95): walks the
intervals keeping a `cursor`, breaking at `range.start >= query.end`,
skipping `range.end <= cursor`, pushing the gap `(cursor, min range.start
query.end)` when `range.start > cursor`, and advancing the cursor.  Returns
the pushed gaps and the final cursor. -/
def missLoop : List (Nat × Nat) → Nat → Nat → List (Nat × Nat) → List (Nat × Nat) × Nat
  | [], cursor, _, acc => (acc, cursor)
  | r :: rest, cursor, qend, acc =>
    if qend ≤ r.1 then (acc, cursor)
    else if r.2 ≤ cursor then missLoop rest cursor qend acc
    else
      missLoop rest (max cursor r.2) qend
        (if cursor < r.1 then acc ++ [(cursor, min r.1 qend)] else acc)

/-- `BlockMap::missing_ranges`: the missing sub-ranges of a query, plus the
final gap `(cursor, query.end)` when the cursor did not reach the end. -/
def BlockMap.missing_ranges (bm : BlockMap) (q : Nat × Nat) : List (Nat × Nat) :=
  if q.2 ≤ q.1 then []
  else
    let res := missLoop bm.intervals q.1 q.2 []
    if res.2 < q.2 then res.1 ++ [(res.2, q.2)] else res.1

/-- `BlockMap::cached_bytes`: the sum of `end - start` over the intervals
(`u64` subtraction; on well-formed maps `start < end` so it never
underflows). -/
def BlockMap.cached_bytes (bm : BlockMap) : Nat :=
  (bm.intervals.map fun r => r.2 - r.1).sum

/-- `BlockMap::interval_count`. -/
def BlockMap.interval_count (bm : BlockMap) : Nat :=
  bm.intervals.length

/-- Loop of `BlockMap::coalesced_missing` (block_map.rs lines 161-169):
extends `current` over gaps of at most `min_gap` bytes, else pushes it.
`m.1 - current.2` is `u64` subtraction; on the sorted missing list
`current.2 < m.1` so it never underflows. -/
def coalLoop (min_gap : Nat) : Nat × Nat → List (Nat × Nat) → List (Nat × Nat)
  | current, [] => [current]
  | current, m :: rest =>
    if m.1 - current.2 ≤ min_gap then coalLoop min_gap (current.1, m.2) rest
    else current :: coalLoop min_gap m rest

/-- `BlockMap::coalesced_missing`: missing ranges with gaps of at most
`min_gap` bytes merged. -/
def BlockMap.coalesced_missing (bm : BlockMap) (q : Nat × Nat) (min_gap : Nat) :
    List (Nat × Nat) :=
  match bm.missing_ranges q with
  | [] => []
  | [m] => [m]
  | m :: rest => coalLoop min_gap m rest

/-- Fold a sequence of inserts over the empty map. -/
def BlockMap.insertAll (rs : List (Nat × Nat)) : BlockMap :=
  rs.foldl BlockMap.insert ⟨[]⟩

/-!
Well-formedness invariant and coverage semantics for `BlockMap`.
-/
/-- Invariant documented on `BlockMap.intervals`: every interval is nonempty
and the list is sorted, pairwise non-overlapping and non-adjacent
(each end strictly below the next start). -/
def IntervalsWF (l : List (Nat × Nat)) : Prop :=
  (∀ r ∈ l, r.1 < r.2) ∧ l.Pairwise fun a b => a.2 < b.1

/-- Set of byte offsets covered by a list of ranges. -/
def coverSet (l : List (Nat × Nat)) : Finset Nat :=
  l.foldr (fun r acc => Finset.Ico r.1 r.2 ∪ acc) ∅

/-- Result of `missing_ranges` for a nonempty query `(cursor, qend)`:
the loop output plus the final gap. -/
def missFull (l : List (Nat × Nat)) (cursor qend : Nat) : List (Nat × Nat) :=
  if (missLoop l cursor qend []).2 < qend then
    (missLoop l cursor qend []).1 ++ [((missLoop l cursor qend []).2, qend)]
  else (missLoop l cursor qend []).1

/-!
Part 2: step evaluation from src/mosaicfs-common/src/steps.rs.

`StepParams` holds, for each op-specific parameter, the result of the
corresponding `step.params.get(..).and_then(..)` JSON lookup.  `DateTime<Utc>`
values are modelled as `Int` timestamps in seconds, so chrono's
`(a - b).num_days()` is `Int.tdiv (a - b) 86400` (both truncate toward zero).
The external glob and regex engines are oracles in `MatchEnv`; a pattern that
fails to compile is modelled by the oracle returning `false`
(`.map(..).unwrap_or(false)` in the source).  `StepContext.has_annot` models
the trait method `has_annotation`. -/
structure StepParams where
  pattern : Option String
  days : Option Int
  comparison : Option String
  bytes : Option Nat
  node_id : Option String
  label : Option String
  missing : Option String
  target : Option String
  status : Option String
  plugin_name : Option String

/-- StepResult from documents.rs. -/
inductive StepResult
  | Include
  | Exclude
  | Continue
deriving Repr, DecidableEq

/-- Step from documents.rs: op name, invert flag, optional on_match, params. -/
structure Step where
  op : String
  invert : Bool
  on_match : Option StepResult
  params : StepParams

/-- FileSource from documents.rs. -/
structure FileSource where
  node_id : String
  export_path : String
  export_parent : String

/-- The fields of FileDocument (documents.rs) that step evaluation and
readdir read. -/
structure FileDocument where
  inode : Nat
  name : String
  size : Nat
  mtime : Int
  mime_type : Option String
  source : FileSource

/-- StepContext trait from steps.rs, as a record of lookup functions. -/
structure StepContext where
  has_label : String → String → Bool
  last_access : String → Option Int
  has_replica : String → Option String → Option String → Bool
  has_annot : String → String → Bool

/-- Oracles for the external glob and regex engines (pattern, name). -/
structure MatchEnv where
  globMatch : String → String → Bool
  regexMatch : String → String → Bool

/-- compare_i64 from steps.rs. -/
def compare_i64 (value threshold : Int) (comparison : String) : Bool :=
  match comparison with
  | "lt" => decide (value < threshold)
  | "gt" => decide (value > threshold)
  | "eq" => decide (value = threshold)
  | _ => false

/-- compare_u64 from steps.rs. -/
def compare_u64 (value threshold : Nat) (comparison : String) : Bool :=
  match comparison with
  | "lt" => decide (value < threshold)
  | "gt" => decide (value > threshold)
  | "eq" => decide (value = threshold)
  | _ => false

/-- FileDocument::uuid_from_id from documents.rs: `id.strip_prefix("file::")`. -/
def uuid_from_id (id : String) : Option String :=
  if id.startsWith "file::" then some (id.drop 6) else none

/-- evaluate_op from steps.rs lines 46-141. -/
def evaluate_op (env : MatchEnv) (step : Step) (file : FileDocument) (file_id : String)
    (file_uuid : String) (now : Int) (context : StepContext) : Bool :=
  match step.op with
  | "glob" =>
    match step.params.pattern with
    | some p => env.globMatch p file.name
    | none => false
  | "regex" =>
    match step.params.pattern with
    | some p => env.regexMatch p file.name
    | none => false
  | "age" =>
    match step.params.days with
    | some d =>
      let comparison := step.params.comparison.getD "gt"
      compare_i64 (Int.tdiv (now - file.mtime) 86400) d comparison
    | none => false
  | "size" =>
    match step.params.bytes with
    | some b =>
      let comparison := step.params.comparison.getD "gt"
      compare_u64 file.size b comparison
    | none => false
  | "mime" =>
    match step.params.pattern with
    | some p =>
      match file.mime_type with
      | some m => decide (List.IsInfix p.toList m.toList)
      | none => false
    | none => false
  | "node" =>
    match step.params.node_id with
    | some n => file.source.node_id == n
    | none => false
  | "label" =>
    match step.params.label with
    | some l => context.has_label file_uuid l
    | none => false
  | "access_age" =>
    match step.params.days with
    | some d =>
      let comparison := step.params.comparison.getD "gt"
      let missing := step.params.missing.getD "include"
      match context.last_access file_id with
      | some last => compare_i64 (Int.tdiv (now - last) 86400) d comparison
      | none => missing == "include"
    | none => false
  | "replicated" =>
    context.has_replica file_uuid step.params.target step.params.status
  | "annotation" =>
    match step.params.plugin_name with
    | some p => context.has_annot file_uuid p
    | none => false
  | _ => false

/-- Loop body of evaluate_steps (steps.rs lines 30-41). -/
def evalLoop (env : MatchEnv) (file : FileDocument) (file_id file_uuid : String)
    (default_result : StepResult) (context : StepContext) (now : Int) :
    List Step → StepResult
  | [] => default_result
  | step :: rest =>
    let matched := evaluate_op env step file file_id file_uuid now context
    let effective := if step.invert then !matched else matched
    if effective then
      match step.on_match.getD StepResult.Include with
      | StepResult.Continue => evalLoop env file file_id file_uuid default_result context now rest
      | other => other
    else evalLoop env file file_id file_uuid default_result context now rest

/-- evaluate_steps from steps.rs lines 20-44 (`now` passed as an oracle for
`Utc::now()`). -/
def evaluate_steps (env : MatchEnv) (steps : List Step) (file : FileDocument)
    (file_id : String) (default_result : StepResult) (context : StepContext)
    (now : Int) : StepResult :=
  let file_uuid := (uuid_from_id file_id).getD file_id
  evalLoop env file file_id file_uuid default_result context now steps

/-- Spec-side restatement of C3: the outcome of a single step is its
`on_match` (default `Include`) when the op result, negated under `invert`,
is positive, and `Continue` otherwise. -/
def stepOutcome (env : MatchEnv) (file : FileDocument) (file_id file_uuid : String)
    (context : StepContext) (now : Int) (step : Step) : StepResult :=
  let matched := evaluate_op env step file file_id file_uuid now context
  let effective := if step.invert then !matched else matched
  if effective then step.on_match.getD StepResult.Include else StepResult.Continue

/-- Spec-side restatement of C3's sequencing: the first non-`Continue`
outcome in step order, or `default_result` when there is none. -/
def claimEval (env : MatchEnv) (steps : List Step) (file : FileDocument)
    (file_id : String) (default_result : StepResult) (context : StepContext)
    (now : Int) : StepResult :=
  let file_uuid := (uuid_from_id file_id).getD file_id
  ((steps.map (stepOutcome env file file_id file_uuid context now)).find?
    (fun r => !(r == StepResult.Continue))).getD default_result

/-!
Part 3: readdir evaluation from src/mosaicfs-vfs/src/readdir.rs (the server
copy in src/mosaicfs-server/src/readdir.rs has the same mapping and
conflict-resolution logic).  The `HashMap`s `result_entries` and
`conflict_policies` are modelled as association lists with unique keys
(`aInsert` replaces in place or appends); `split_extension` works on byte
indices in Rust and on character positions here, which agree on the
single-byte characters the proofs use. -/
inductive ConflictPolicy
  | LastWriteWins
  | SuffixNodeId
deriving Repr, DecidableEq

/-- MountStrategy from documents.rs. -/
inductive MountStrategy
  | PrefixReplace
  | Flatten
deriving Repr, DecidableEq

/-- MountSource from documents.rs. -/
inductive MountSource
  | Node (node_id : String) (export_path : String)
  | Federated (federated_import_id : String)
deriving Repr, DecidableEq

/-- MountEntry from documents.rs (fields used by evaluate_readdir). -/
structure MountEntry where
  mount_id : String
  source : MountSource
  strategy : MountStrategy
  steps : List Step
  default_result : StepResult
  conflict_policy : ConflictPolicy

/-- ReaddirEntry from readdir.rs. -/
structure ReaddirEntry where
  name : String
  file_id : String
  inode : Nat
  size : Nat
  mtime : Int
  mime_type : Option String
  source_node_id : String
  source_export_path : String
  mount_id : String
deriving Repr, DecidableEq

/-- Index of the last '.' in a character list (Rust `str::rfind('.')`). -/
def rfindDot : List Char → Option Nat
  | [] => none
  | c :: rest =>
    match rfindDot rest with
    | some i => some (i + 1)
    | none => if c = '.' then some 0 else none

/-- split_extension from readdir.rs lines 302-307: split at the last dot
when it is not the leading character. -/
def split_extension (name : String) : String × String :=
  match rfindDot name.toList with
  | some pos =>
    if pos > 0 then (⟨name.toList.take pos⟩, ⟨name.toList.drop (pos + 1)⟩)
    else (name, "")
  | none => (name, "")

/-- Rust `str::split_once(c)` on character lists. -/
def splitOnceList (c : Char) : List Char → Option (List Char × List Char)
  | [] => none
  | x :: rest =>
    if x = c then some ([], rest)
    else
      match splitOnceList c rest with
      | some (a, b) => some (x :: a, b)
      | none => none

/-- map_filename from readdir.rs lines 237-264. -/
def map_filename (strategy : MountStrategy) (source : MountSource)
    (file_doc : FileDocument) : String :=
  match strategy with
  | MountStrategy.Flatten => file_doc.name
  | MountStrategy.PrefixReplace =>
    match source with
    | MountSource.Node _ export_path =>
      let rel0 := if file_doc.source.export_path.startsWith export_path
        then file_doc.source.export_path.drop export_path.length
        else file_doc.source.export_path
      let rel := rel0.dropWhile (fun c => c = '/')
      if rel = "" then file_doc.name
      else
        match splitOnceList '/' rel.toList with
        | some (first, _) => ⟨first⟩
        | none => rel
    | MountSource.Federated _ => file_doc.name

/-- Association-list lookup (first match), the model of `HashMap::get`. -/
def aLookup {V : Type} : List (String × V) → String → Option V
  | [], _ => none
  | (k', v') :: rest, k => if k' = k then some v' else aLookup rest k

/-- Association-list insert-or-replace, the model of `HashMap::insert`. -/
def aInsert {V : Type} : List (String × V) → String → V → List (String × V)
  | [], k, v => [(k, v)]
  | (k', v') :: rest, k, v =>
    if k' = k then (k, v) :: rest else (k', v') :: aInsert rest k v

/-- Suffixed name used by the suffix_node_id branch:
`{stem} ({node_id}).{ext}`, or `{stem} ({node_id})` without extension. -/
def suffixName (mapped_name node_id : String) : String :=
  let se := split_extension mapped_name
  if se.2 = "" then se.1 ++ " (" ++ node_id ++ ")"
  else se.1 ++ " (" ++ node_id ++ ")." ++ se.2

/-- Entry renamed to the suffixed name (`suffixed_entry` in readdir.rs). -/
def renameEntry (nm : String) (e : ReaddirEntry) : ReaddirEntry :=
  ⟨nm, e.file_id, e.inode, e.size, e.mtime, e.mime_type, e.source_node_id,
    e.source_export_path, e.mount_id⟩

/-- Conflict-resolution step of evaluate_readdir (readdir.rs lines 139-166),
applied to one contribution `(mount conflict_policy, mapped_name, entry)`. -/
def applyContribution (st : List (String × ReaddirEntry) × List (String × ConflictPolicy))
    (c : ConflictPolicy × String × ReaddirEntry) :
    List (String × ReaddirEntry) × List (String × ConflictPolicy) :=
  let mount_policy := c.1
  let mapped_name := c.2.1
  let entry := c.2.2
  match aLookup st.1 mapped_name with
  | some existing =>
    match (aLookup st.2 mapped_name).getD mount_policy with
    | ConflictPolicy.LastWriteWins =>
      if existing.mtime < entry.mtime then
        (aInsert st.1 mapped_name entry, aInsert st.2 mapped_name mount_policy)
      else st
    | ConflictPolicy.SuffixNodeId =>
      let suffixed := suffixName mapped_name entry.source_node_id
      (aInsert st.1 suffixed (renameEntry suffixed entry), st.2)
  | none =>
    (aInsert st.1 mapped_name entry, aInsert st.2 mapped_name mount_policy)

/-- Oracles for evaluate_readdir: the step-evaluation environment, the
CouchDB mount query (readdir.rs `query_mount_files`), and the clock. -/
structure ReaddirEnv where
  menv : MatchEnv
  queryMountFiles : MountSource → List (String × FileDocument)
  now : Int

/-- Contributions of one mount that reach conflict resolution (the body of
the readdir.rs file loop before the conflict match): step filtering, name
mapping, and the child-directory skip. -/
def mountContribs (env : ReaddirEnv) (inherited_steps : List Step)
    (child_dirs : List String) (ctx : StepContext) (mount : MountEntry) :
    List (ConflictPolicy × String × ReaddirEntry) :=
  (env.queryMountFiles mount.source).filterMap fun fd =>
    let file_id := fd.1
    let file_doc := fd.2
    let all_steps := inherited_steps ++ mount.steps
    if evaluate_steps env.menv all_steps file_doc file_id mount.default_result ctx env.now
        ≠ StepResult.Include then none
    else
      let mapped_name := map_filename mount.strategy mount.source file_doc
      if child_dirs.any (fun d => d = mapped_name) then none
      else some (mount.conflict_policy, mapped_name,
        ⟨mapped_name, file_id, file_doc.inode, file_doc.size, file_doc.mtime,
          file_doc.mime_type, file_doc.source.node_id, file_doc.source.export_path,
          mount.mount_id⟩)

/-- All contributions, in mount order then file order. -/
def contributionsOf (env : ReaddirEnv) (mounts : List MountEntry)
    (inherited_steps : List Step) (child_dirs : List String) (ctx : StepContext) :
    List (ConflictPolicy × String × ReaddirEntry) :=
  (mounts.map (mountContribs env inherited_steps child_dirs ctx)).flatten

/-- Fold of the conflict-resolution step over the contributions, starting
from the empty `result_entries` and `conflict_policies` maps. -/
def resolveConflicts (cs : List (ConflictPolicy × String × ReaddirEntry)) :
    List (String × ReaddirEntry) × List (String × ConflictPolicy) :=
  cs.foldl applyContribution ([], [])

/-- evaluate_readdir from readdir.rs lines 97-173: resolve conflicts over all
contributions, then return the values sorted by name. -/
def evaluate_readdir (env : ReaddirEnv) (mounts : List MountEntry)
    (inherited_steps : List Step) (child_dirs : List String) (ctx : StepContext) :
    List ReaddirEntry :=
  ((resolveConflicts (contributionsOf env mounts inherited_steps child_dirs ctx)).1.map
    (fun kv => kv.2)).mergeSort (fun a b => decide (a.name ≤ b.name))

/-- Invariant of the last-write-wins conflict fold: every stored entry is one
of the contributions processed so far for its name, has the maximum mtime
among them, and keeps its key as its name; every processed name is present;
only last_write_wins policies are stored; and keys are unique. -/
def LwwInv (done : List (ConflictPolicy × String × ReaddirEntry))
    (st : List (String × ReaddirEntry) × List (String × ConflictPolicy)) : Prop :=
  (∀ kv ∈ st.1, (∃ c ∈ done, c.2.1 = kv.1 ∧ c.2.2 = kv.2) ∧
      (∀ c ∈ done, c.2.1 = kv.1 → c.2.2.mtime ≤ kv.2.mtime) ∧ kv.2.name = kv.1) ∧
  (∀ c ∈ done, (aLookup st.1 c.2.1).isSome = true) ∧
  (∀ kp ∈ st.2, kp.2 = ConflictPolicy.LastWriteWins) ∧
  (st.1.map (fun kv => kv.1)).Nodup

/-- Concrete step context with no labels, accesses, replicas or annotations. -/
def emptyCtx : StepContext :=
  ⟨fun _ _ => false, fun _ => none, fun _ _ _ => false, fun _ _ => false⟩

/-- Concrete file named `a.txt` on node n1, distinguished by inode and mtime. -/
def fdA (i : Nat) (mt : Int) : FileDocument :=
  ⟨i, "a.txt", 100, mt, none, ⟨"n1", "/x/a.txt", "/x"⟩⟩

/-- Concrete readdir environment returning two colliding `a.txt` files. -/
def envC8 : ReaddirEnv :=
  ⟨⟨fun _ _ => false, fun _ _ => false⟩,
   fun _ => [("file::1", fdA 1 10), ("file::2", fdA 2 20)], 0⟩

/-- Concrete last_write_wins mount. -/
def mountC8 : MountEntry :=
  ⟨"m1", MountSource.Node "n1" "/x", MountStrategy.Flatten, [], StepResult.Include,
   ConflictPolicy.LastWriteWins⟩

/-- The entry kept by last_write_wins for the concrete input: the newer file. -/
def entryC8 : ReaddirEntry :=
  ⟨"a.txt", "file::2", 2, 100, 20, none, "n1", "/x/a.txt", "m1"⟩

/-- Concrete readdir environment returning three colliding `a.txt` files
from the same node. -/
def envC9 : ReaddirEnv :=
  ⟨⟨fun _ _ => false, fun _ _ => false⟩,
   fun _ => [("file::1", fdA 1 10), ("file::2", fdA 2 20), ("file::3", fdA 3 30)], 0⟩

/-- Concrete suffix_node_id mount. -/
def mountC9 : MountEntry :=
  ⟨"m1", MountSource.Node "n1" "/x", MountStrategy.Flatten, [], StepResult.Include,
   ConflictPolicy.SuffixNodeId⟩

/-!
Part 4: the tiered resolver from src/mosaicfs-vfs/src/tiered_access.rs.
Filesystem, cache, node-lookup and replica-failover effects are oracles in
`FsEnv`; `resolve_from_replica` (Tier 4b) is the opaque oracle
`replicaResolve`.  Rust `Path::starts_with` compares whole path components,
modelled by `pathStartsWith` on `/`-separated components (the paths involved
are canonical absolute paths).  `cache.get_entry` returning `Err` or
`Ok(None)` are both modelled as `none`; on a block-map cache hit the code
returns the same cached path as on a full-file hit, so the two branches
collapse. -/
inductive AccessResult
  | LocalPath (path : String)
  | NeedsFetch (file_id node_id transfer_endpoint : String) (size : Nat) (mtime : String)
  | NotAccessible (reason : String)
deriving Repr, DecidableEq

/-- The fields of FileInode (inode.rs) that resolve_file reads
(`mtimeStr` is `file.mtime.to_rfc3339()`). -/
structure FileInode where
  file_id : String
  source_node_id : String
  source_export_path : String
  size : Nat
  mtimeStr : String

/-- Cache entry metadata used by the Tier-2 cache check
(`block_map` only matters through `is_none`). -/
structure CacheEntry where
  mtime : String
  size_on_record : Nat
  block_map : Option Unit

/-- NetworkMountInfo from tiered_access.rs. -/
structure NetworkMountInfo where
  remote_node_id : String
  remote_base_export_path : String
  local_mount_path : String
  mount_type : String

/-- Oracles for the resolver's effects. -/
structure FsEnv where
  pathExists : String → Bool
  canonicalize : String → Option String
  cacheEntry : String → Option CacheEntry
  cacheEntryPath : String → String
  icloudEvicted : String → Bool
  transferEndpoint : String → Option String
  replicaResolve : FileInode → AccessResult

/-- Split a character list on `/`. -/
def splitOnSlash : List Char → List (List Char)
  | [] => [[]]
  | c :: rest =>
    match splitOnSlash rest with
    | [] => [[]]
    | g :: gs => if c = '/' then [] :: g :: gs else (c :: g) :: gs

/-- Path components of a `/`-separated absolute path (empty components
dropped, as Rust `Path::components` normalizes them away). -/
def pathComponents (s : String) : List String :=
  ((splitOnSlash s.toList).map (fun g => (⟨g⟩ : String))).filter (fun c => c ≠ "")

/-- Rust `Path::starts_with`: component-wise prefix. -/
def pathStartsWith (p base : String) : Bool :=
  (pathComponents base).isPrefixOf (pathComponents p)

/-- is_under_watch_path from tiered_access.rs lines 511-524: the canonical
path must start with a canonicalized watch path, or with the raw watch path
when canonicalization fails or does not match. -/
def is_under_watch_path (env : FsEnv) (canonical : String) (watch_paths : List String) : Bool :=
  watch_paths.any fun wp =>
    (match env.canonicalize wp with
     | some wpc => pathStartsWith canonical wpc
     | none => false)
    || pathStartsWith canonical wp

/-- Rust `str::trim_end_matches('/')`. -/
def stripTrailingSlashes (s : String) : String :=
  ⟨(s.toList.reverse.dropWhile (fun c => c = '/')).reverse⟩

/-- translate_network_path from tiered_access.rs lines 527-542. -/
def translate_network_path (export_path remote_base local_mount : String) : Option String :=
  if export_path.startsWith remote_base then
    let relative := export_path.drop remote_base.length
    some (stripTrailingSlashes local_mount
      ++ (if relative.startsWith "/" then relative else "/" ++ relative))
  else none

/-- Tier 2 loop (network mounts of type cifs or nfs). -/
def tier2Mounts (env : FsEnv) (file : FileInode) : List NetworkMountInfo → Option String
  | [] => none
  | m :: rest =>
    if m.remote_node_id = file.source_node_id ∧ (m.mount_type = "cifs" ∨ m.mount_type = "nfs")
    then
      match translate_network_path file.source_export_path m.remote_base_export_path
        m.local_mount_path with
      | some t => if env.pathExists t then some t else tier2Mounts env file rest
      | none => tier2Mounts env file rest
    else tier2Mounts env file rest

/-- Tier 3 loop (cloud-sync local mounts, with the iCloud eviction check). -/
def tier3Mounts (env : FsEnv) (file : FileInode) : List NetworkMountInfo → Option String
  | [] => none
  | m :: rest =>
    if m.remote_node_id = file.source_node_id
        ∧ (m.mount_type = "icloud_local" ∨ m.mount_type = "gdrive_local") then
      match translate_network_path file.source_export_path m.remote_base_export_path
        m.local_mount_path with
      | some t =>
        if env.pathExists t then
          if m.mount_type = "icloud_local" ∧ env.icloudEvicted t
          then tier3Mounts env file rest
          else some t
        else tier3Mounts env file rest
      | none => tier3Mounts env file rest
    else tier3Mounts env file rest

/-- The resolver from the cache check onward (tiered_access.rs lines
84-186): cache hit, Tier 2, Tier 3, Tier 4 remote fetch, Tier 4b replica
failover. -/
def resolveAfterLocal (env : FsEnv) (file : FileInode)
    (network_mounts : List NetworkMountInfo) : AccessResult :=
  let file_uuid := if file.file_id.startsWith "file::" then file.file_id.drop 6
    else file.file_id
  let afterCache :=
    match tier2Mounts env file network_mounts with
    | some t => AccessResult.LocalPath t
    | none =>
      match tier3Mounts env file network_mounts with
      | some t => AccessResult.LocalPath t
      | none =>
        match env.transferEndpoint file.source_node_id with
        | some endpoint =>
          AccessResult.NeedsFetch file.file_id file.source_node_id endpoint
            file.size file.mtimeStr
        | none => env.replicaResolve file
  match env.cacheEntry file_uuid with
  | some entry =>
    if entry.mtime = file.mtimeStr ∧ entry.size_on_record = file.size then
      let cached_path := env.cacheEntryPath file_uuid
      if env.pathExists cached_path then AccessResult.LocalPath cached_path
      else afterCache
    else afterCache
  | none => afterCache

/-- resolve_file from tiered_access.rs lines 51-186: Tier 1 returns the
canonicalized local path when the file belongs to this node, exists, and its
canonical form is contained in a watch path; in every other case (including
a failed containment check, which is only logged) resolution continues with
the later tiers. -/
def resolve_file (env : FsEnv) (file : FileInode) (local_node_id : String)
    (watch_paths : List String) (network_mounts : List NetworkMountInfo) : AccessResult :=
  if file.source_node_id = local_node_id ∧ env.pathExists file.source_export_path then
    match env.canonicalize file.source_export_path with
    | some canonical =>
      if is_under_watch_path env canonical watch_paths then
        AccessResult.LocalPath canonical
      else resolveAfterLocal env file network_mounts
    | none => resolveAfterLocal env file network_mounts
  else resolveAfterLocal env file network_mounts

/-- Discriminator for the NotAccessible variant. -/
def AccessResult.isNotAccessible : AccessResult → Bool
  | AccessResult.NotAccessible _ => true
  | _ => false

/-- Concrete resolver environment: the source path exists but its canonical
form lies outside every watch root; the cache is empty; the owning node is
online with a transfer endpoint. -/
def envC7 : FsEnv :=
  ⟨fun p => p = "/outside/f" ∨ p = "/w",
   fun p => if p = "/outside/f" ∨ p = "/w" then some p else none,
   fun _ => none, fun u => "/cache/" ++ u, fun _ => false,
   fun _ => some "http://e",
   fun f => AccessResult.NotAccessible ("File " ++ f.file_id ++ " not accessible")⟩

/-- Concrete file owned by the local node whose export path escapes the
watch roots. -/
def fileC7 : FileInode :=
  ⟨"file::u", "n1", "/outside/f", 100, "mt"⟩

/-!
Part 5: the replication subsystem from
src/mosaicfs-agent/src/replication_subsystem.rs.

SQLite tables are lists of rows; `INSERT OR REPLACE` into a table keyed on
`(file_id, target_name)` is remove-matching-then-append (row order in a
keyed table is irrelevant to the code's queries).  RFC3339 timestamp strings
compare lexicographically exactly as their instants compare, so timestamps
are `Int` seconds; `retention_days` days become `retention_days * 86400`
seconds.  `NaiveTime` values with zeroed seconds (both schedule bounds and
the `with_second(0)` clock) are minutes since midnight.  CouchDB, the
backends, the clocks and `perform_upload` (which computes the remote key
and SHA-256 checksum from data read from disk) are oracles in `AgentEnv`;
notification emission (`emit_notification`, `resolve_notification`) writes
only to CouchDB and is not part of the modelled state.  `load_rules_and_
targets` results are passed in as the `rules` and `targets` arguments, as
the Rust functions receive them.  The in-memory `pending_annotations` and
`pending_uploads` maps are carried inside `ReplState` next to the tables.
The `prefix` field of a target and the `source_path_prefix` field of a rule
are named `rkeyPre` and `sourcePathPre` here. -/
structure RepRow where
  file_id : String
  target_name : String
  replicated_at : Int
  source_mtime : String
  source_size : Nat
  remote_key : String
  checksum : Option String
deriving Repr, DecidableEq

/-- Row of the deletion_log table. -/
structure DelRow where
  file_id : String
  target_name : String
  deleted_at : Int
  retain_until : Option Int
  remote_key : String
  purged : Bool
deriving Repr, DecidableEq

/-- Row of the upload_queue table (`id` is the insertion position in the
list; `priority` is always the schema default 0, so the drain's
`ORDER BY priority DESC, id ASC` is list order). -/
structure QRow where
  file_id : String
  target_name : String
  queued_at : Int
deriving Repr, DecidableEq

/-- Parsed replication target (struct ReplicationTarget). -/
structure ReplicationTarget where
  name : String
  backend_type : String
  rkeyPre : String
  schedule : Option (Nat × Nat)
  bandwidth_limit_mbps : Option Int
  workers : Nat
  retention_days : Int
  remove_unmatched : Bool

/-- Parsed replication rule (struct ReplicationRule). -/
structure ReplicationRule where
  rule_id : String
  name : String
  target_name : String
  source_node_id : String
  sourcePathPre : Option String
  steps : List Step
  default_result : StepResult

/-- File-document fields the agent reads from CouchDB JSON (`mtimeStr` is
the raw "mtime" string, `mtimeParsed` its instant for step evaluation). -/
structure AgentFileDoc where
  node_id : String
  export_path : String
  export_parent : String
  name : String
  size : Nat
  mtimeStr : String
  mtimeParsed : Int
  mime_type : Option String
  inode : Nat
deriving Repr, DecidableEq

/-- parse_file_doc from replication_subsystem.rs lines 1180-1205. -/
def parse_file_doc (d : AgentFileDoc) : FileDocument :=
  ⟨d.inode, d.name, d.size, d.mtimeParsed, d.mime_type,
    ⟨d.node_id, d.export_path, d.export_parent⟩⟩

/-- State of replication.db plus the event loop's in-memory maps. -/
structure ReplState where
  replication_state : List RepRow
  deletion_log : List DelRow
  upload_queue : List QRow
  pending_annotations : List (String × List (String × String))
  pending_uploads : List ((String × String) × AgentFileDoc)
deriving Repr, DecidableEq

/-- Externally visible calls made by the subsystem. -/
inductive AgentEffect
  | remoteDelete (target key : String)
  | upload (file_id target : String)
deriving Repr, DecidableEq

/-- Oracles for the subsystem's effects. -/
structure AgentEnv where
  menv : MatchEnv
  now : Int
  localNowMin : Nat
  labels : String → String → Bool
  lastAccess : String → Option Int
  buildBackendOk : String → Bool
  remoteDeleteOk : String → String → Bool
  uploadResult : String → String → Option (String × Option String)
  getDocument : String → Option AgentFileDoc

/-- in_schedule_window from replication_subsystem.rs lines 210-219, on
minutes since midnight. -/
def in_schedule_window (window : Option (Nat × Nat)) (localNowMin : Nat) : Bool :=
  match window with
  | none => true
  | some se =>
    if se.1 ≤ se.2 then decide (se.1 ≤ localNowMin ∧ localNowMin < se.2)
    else decide (localNowMin ≥ se.1 ∨ localNowMin < se.2)

/-- get_replication_state from replication_subsystem.rs lines 1142-1157. -/
def get_replication_state (rs : List RepRow) (file_id target_name : String) : Option RepRow :=
  rs.find? fun r => r.file_id == file_id && r.target_name == target_name

/-- INSERT OR REPLACE into replication_state keyed (file_id, target_name). -/
def repUpsert (rs : List RepRow) (row : RepRow) : List RepRow :=
  (rs.filter fun r => !(r.file_id == row.file_id && r.target_name == row.target_name)) ++ [row]

/-- DELETE FROM replication_state WHERE file_id = ? AND target_name = ?. -/
def repDelete (rs : List RepRow) (file_id target_name : String) : List RepRow :=
  rs.filter fun r => !(r.file_id == file_id && r.target_name == target_name)

/-- INSERT OR REPLACE into deletion_log keyed (file_id, target_name). -/
def delUpsert (dl : List DelRow) (row : DelRow) : List DelRow :=
  (dl.filter fun d => !(d.file_id == row.file_id && d.target_name == row.target_name)) ++ [row]

/-- UPDATE deletion_log SET purged = 1 WHERE file_id = ? AND target_name = ?. -/
def delSetPurged (dl : List DelRow) (file_id target_name : String) : List DelRow :=
  dl.map fun d =>
    if d.file_id == file_id && d.target_name == target_name then
      ⟨d.file_id, d.target_name, d.deleted_at, d.retain_until, d.remote_key, true⟩
    else d

/-- queue_upload from replication_subsystem.rs lines 1159-1165
(INSERT OR IGNORE under UNIQUE(file_id, target_name)). -/
def queue_upload (q : List QRow) (now : Int) (file_id target_name : String) : List QRow :=
  if q.any (fun r => r.file_id == file_id && r.target_name == target_name) then q
  else q ++ [⟨file_id, target_name, now⟩]

/-- DELETE FROM upload_queue WHERE file_id = ? AND target_name = ?. -/
def queueDelete (q : List QRow) (file_id target_name : String) : List QRow :=
  q.filter fun r => !(r.file_id == file_id && r.target_name == target_name)

/-- update_annotation_status from replication_subsystem.rs lines 1167-1177. -/
def update_annotation_status (pending : List (String × List (String × String)))
    (file_id target_name status : String) : List (String × List (String × String)) :=
  aInsert pending file_id (aInsert ((aLookup pending file_id).getD []) target_name status)

/-- Removal of one target key from a file's pending-annotation map
(`ann.remove(&target_name)` in process_deletion_event). -/
def annotRemove (pending : List (String × List (String × String)))
    (file_id target_name : String) : List (String × List (String × String)) :=
  match aLookup pending file_id with
  | some inner => aInsert pending file_id (inner.filter fun kv => !(kv.1 == target_name))
  | none => pending

/-- build_step_context from replication_subsystem.rs lines 1095-1134: labels
and last access come from CouchDB (oracles); replicas are the
replication_state rows of the file, each reported with status "current";
has_annotation is constantly false (lines 142-144). -/
def build_step_context (env : AgentEnv) (file_id file_uuid : String)
    (rs : List RepRow) : StepContext :=
  ⟨fun _ l => env.labels file_uuid l,
   fun _ => env.lastAccess file_id,
   fun _ target status =>
     (rs.filter fun r => r.file_id == file_id).any fun r =>
       (match target with | some t => r.target_name == t | none => true)
       && (match status with | some st => st == "current" | none => true),
   fun _ _ => false⟩

/-- check_un_replication from replication_subsystem.rs lines 564-617. -/
def check_un_replication (env : AgentEnv) (file_id target_name : String)
    (targets : List (String × ReplicationTarget)) (st : ReplState) : ReplState :=
  let has_replica := (st.replication_state.filter fun r =>
    r.file_id == file_id && r.target_name == target_name).length > 0
  if ¬ has_replica then st
  else
    match aLookup targets target_name with
    | none => st
    | some target =>
      if target.remove_unmatched then
        match (st.replication_state.find? fun r =>
            r.file_id == file_id && r.target_name == target_name) with
        | some row =>
          let retain_until := if target.retention_days > 0
            then some (env.now + target.retention_days * 86400) else none
          ⟨repDelete st.replication_state file_id target_name,
           delUpsert st.deletion_log
             ⟨file_id, target_name, env.now, retain_until, row.remote_key, false⟩,
           st.upload_queue, st.pending_annotations, st.pending_uploads⟩
        | none => st
      else
        ⟨st.replication_state, st.deletion_log, st.upload_queue,
         update_annotation_status st.pending_annotations file_id target_name "frozen",
         st.pending_uploads⟩

/-- Body of the rule loop of process_file_event (replication_subsystem.rs
lines 427-487) for one rule; `ctx` is the step context built once before
the loop. -/
def processRuleStep (env : AgentEnv) (node_id file_id : String) (doc : AgentFileDoc)
    (targets : List (String × ReplicationTarget)) (ctx : StepContext)
    (st : ReplState) (rule : ReplicationRule) : ReplState :=
  if rule.source_node_id ≠ "*" ∧ rule.source_node_id ≠ node_id then st
  else if (match rule.sourcePathPre with
           | some p => !(doc.export_path.startsWith p)
           | none => false) = true then st
  else
    let result := evaluate_steps env.menv rule.steps (parse_file_doc doc) file_id
      rule.default_result ctx env.now
    if result ≠ StepResult.Include then
      check_un_replication env file_id rule.target_name targets st
    else
      match aLookup targets rule.target_name with
      | none => st
      | some target =>
        let existing := get_replication_state st.replication_state file_id rule.target_name
        if (match existing with
            | some s => s.source_mtime == doc.mtimeStr && s.source_size == doc.size
            | none => false) = true then st
        else if ¬ (in_schedule_window target.schedule env.localNowMin = true) then
          ⟨st.replication_state, st.deletion_log,
           queue_upload st.upload_queue env.now file_id rule.target_name,
           update_annotation_status st.pending_annotations file_id rule.target_name "pending",
           st.pending_uploads⟩
        else
          ⟨st.replication_state, st.deletion_log, st.upload_queue,
           update_annotation_status st.pending_annotations file_id rule.target_name "stale",
           ((st.pending_uploads.filter fun kv =>
              !(kv.1.1 == file_id && kv.1.2 == rule.target_name))
             ++ [((file_id, rule.target_name), doc)])⟩

/-- process_file_event from replication_subsystem.rs lines 404-490: skip
files of other nodes, then run every rule through `processRuleStep`. -/
def process_file_event (env : AgentEnv) (node_id file_id : String) (doc : AgentFileDoc)
    (rules : List ReplicationRule) (targets : List (String × ReplicationTarget))
    (st : ReplState) : ReplState :=
  if doc.node_id ≠ node_id then st
  else
    let file_uuid := if file_id.startsWith "file::" then file_id.drop 6 else file_id
    let ctx := build_step_context env file_id file_uuid st.replication_state
    rules.foldl (processRuleStep env node_id file_id doc targets ctx) st

/-- Body of the target loop of process_deletion_event
(replication_subsystem.rs lines 513-559) for one
`(target_name, remote_key)` pair. -/
def processDeletionStep (env : AgentEnv) (file_id : String)
    (targets : List (String × ReplicationTarget))
    (acc : ReplState × List AgentEffect) (tk : String × String) :
    ReplState × List AgentEffect :=
  match aLookup targets tk.1 with
  | none => acc
  | some target =>
    let retain_until := if target.retention_days > 0
      then some (env.now + target.retention_days * 86400) else none
    let st1 : ReplState :=
      ⟨repDelete acc.1.replication_state file_id tk.1,
       delUpsert acc.1.deletion_log ⟨file_id, tk.1, env.now, retain_until, tk.2, false⟩,
       acc.1.upload_queue, acc.1.pending_annotations, acc.1.pending_uploads⟩
    let next : ReplState × List AgentEffect :=
      if target.retention_days = 0 then
        if env.buildBackendOk tk.1 then
          (⟨st1.replication_state, delSetPurged st1.deletion_log file_id tk.1,
            st1.upload_queue, st1.pending_annotations, st1.pending_uploads⟩,
           acc.2 ++ [AgentEffect.remoteDelete tk.1 tk.2])
        else (st1, acc.2)
      else (st1, acc.2)
    (⟨next.1.replication_state, next.1.deletion_log, next.1.upload_queue,
      annotRemove next.1.pending_annotations file_id tk.1, next.1.pending_uploads⟩,
     next.2)

/-- process_deletion_event from replication_subsystem.rs lines 492-562. -/
def process_deletion_event (env : AgentEnv) (file_id : String)
    (targets : List (String × ReplicationTarget)) (st : ReplState) :
    ReplState × List AgentEffect :=
  let replicated_targets := (st.replication_state.filter fun r =>
    r.file_id == file_id).map fun r => (r.target_name, r.remote_key)
  replicated_targets.foldl (processDeletionStep env file_id targets) (st, [])

/-- Body of the purge loop of sweep_deletion_log (replication_subsystem.rs
lines 918-930): the delete call is attempted whenever the backend builds,
and `purged` is set only when it succeeds. -/
def sweepStep (env : AgentEnv) (targets : List (String × ReplicationTarget))
    (acc : ReplState × List AgentEffect) (ftk : String × String × String) :
    ReplState × List AgentEffect :=
  match aLookup targets ftk.2.1 with
  | none => acc
  | some _ =>
    if env.buildBackendOk ftk.2.1 then
      if env.remoteDeleteOk ftk.2.1 ftk.2.2 then
        (⟨acc.1.replication_state, delSetPurged acc.1.deletion_log ftk.1 ftk.2.1,
          acc.1.upload_queue, acc.1.pending_annotations, acc.1.pending_uploads⟩,
         acc.2 ++ [AgentEffect.remoteDelete ftk.2.1 ftk.2.2])
      else (acc.1, acc.2 ++ [AgentEffect.remoteDelete ftk.2.1 ftk.2.2])
    else acc

/-- sweep_deletion_log from replication_subsystem.rs lines 898-933: purge
unpurged rows whose retain_until is null or has passed. -/
def sweep_deletion_log (env : AgentEnv) (targets : List (String × ReplicationTarget))
    (st : ReplState) : ReplState × List AgentEffect :=
  let to_purge := (st.deletion_log.filter fun d =>
    d.purged == false && (match d.retain_until with
      | none => true
      | some t => decide (t ≤ env.now))).map fun d => (d.file_id, d.target_name, d.remote_key)
  to_purge.foldl (sweepStep env targets) (st, [])

/-- Body of the drain loop of process_upload_queue
(replication_subsystem.rs lines 644-725) for one queued pair. -/
def drainStep (env : AgentEnv) (targets : List (String × ReplicationTarget))
    (acc : ReplState × List AgentEffect) (ft : String × String) :
    ReplState × List AgentEffect :=
  match aLookup targets ft.2 with
  | none => acc
  | some target =>
    if ¬ (in_schedule_window target.schedule env.localNowMin = true) then acc
    else
      match env.getDocument ft.1 with
      | none =>
        (⟨acc.1.replication_state, acc.1.deletion_log,
          queueDelete acc.1.upload_queue ft.1 ft.2,
          acc.1.pending_annotations, acc.1.pending_uploads⟩, acc.2)
      | some doc =>
        match env.uploadResult ft.1 ft.2 with
        | some rkck =>
          (⟨repUpsert acc.1.replication_state
              ⟨ft.1, ft.2, env.now, doc.mtimeStr, doc.size, rkck.1, rkck.2⟩,
            acc.1.deletion_log,
            queueDelete acc.1.upload_queue ft.1 ft.2,
            update_annotation_status acc.1.pending_annotations ft.1 ft.2 "current",
            acc.1.pending_uploads⟩,
           acc.2 ++ [AgentEffect.upload ft.1 ft.2])
        | none =>
          (⟨acc.1.replication_state, acc.1.deletion_log, acc.1.upload_queue,
            update_annotation_status acc.1.pending_annotations ft.1 ft.2 "failed",
            acc.1.pending_uploads⟩,
           acc.2 ++ [AgentEffect.upload ft.1 ft.2])

/-- process_upload_queue from replication_subsystem.rs lines 619-743: drain
up to 100 queued pairs (the backlog notification at the end only writes to
CouchDB). -/
def process_upload_queue (env : AgentEnv) (targets : List (String × ReplicationTarget))
    (st : ReplState) : ReplState × List AgentEffect :=
  let queued := (st.upload_queue.take 100).map fun q => (q.file_id, q.target_name)
  queued.foldl (drainStep env targets) (st, [])

/-- Concrete always-succeeding agent environment at t = 1000 s, local time
14:00. -/
def envAg : AgentEnv :=
  ⟨⟨fun _ _ => false, fun _ _ => false⟩, 1000, 840,
   fun _ _ => false, fun _ => none,
   fun _ => true, fun _ _ => true,
   fun f t => some ("key-" ++ f ++ "-" ++ t, some "ck"),
   fun f => if f = "file::a" then some ⟨"n1", "/x/a", "/x", "a", 5, "2024", 0, none, 1⟩
            else none⟩

/-- The same environment with local time 03:00 (inside a 02:00-06:00
window). -/
def envAg3am : AgentEnv :=
  ⟨⟨fun _ _ => false, fun _ _ => false⟩, 1000, 180,
   fun _ _ => false, fun _ => none,
   fun _ => true, fun _ _ => true,
   fun f t => some ("key-" ++ f ++ "-" ++ t, some "ck"),
   fun f => if f = "file::a" then some ⟨"n1", "/x/a", "/x", "a", 5, "2024", 0, none, 1⟩
            else none⟩

/-- Concrete target `T` with the given retention and schedule. -/
def targetT (ret : Int) (sched : Option (Nat × Nat)) : ReplicationTarget :=
  ⟨"T", "s3", "pre", sched, none, 2, ret, false⟩

/-- Concrete catch-all rule replicating to `T`. -/
def ruleR : ReplicationRule := ⟨"r1", "rule", "T", "*", none, [], StepResult.Include⟩

/-- Concrete document for `file::a` on node n1. -/
def docA : AgentFileDoc := ⟨"n1", "/x/a", "/x", "a", 5, "2024", 0, none, 1⟩

/-- UNIQUE(file_id, target_name) of the replication_state table. -/
def RepKeysNodup (rs : List RepRow) : Prop :=
  (rs.map fun r => (r.file_id, r.target_name)).Nodup

/-- UNIQUE(file_id, target_name) of the deletion_log table. -/
def DelKeysNodup (dl : List DelRow) : Prop :=
  (dl.map fun d => (d.file_id, d.target_name)).Nodup

/-- What a Deleted event does to one replicated (target, key) pair: the
replication_state row disappears, a deletion_log row appears with the
retention deadline, and when retention is zero and the backend is
reachable the remote object is deleted at once and the row marked purged. -/
def DeletionOutcome (env : AgentEnv) (file_id tn k : String)
    (t : ReplicationTarget) (res : ReplState × List AgentEffect) : Prop :=
  (∀ r' ∈ res.1.replication_state, ¬(r'.file_id = file_id ∧ r'.target_name = tn)) ∧
  (∃ d ∈ res.1.deletion_log, d.file_id = file_id ∧ d.target_name = tn ∧
    d.remote_key = k ∧
    d.retain_until = (if t.retention_days > 0
      then some (env.now + t.retention_days * 86400) else none) ∧
    d.purged = (decide (t.retention_days = 0) && env.buildBackendOk tn)) ∧
  (t.retention_days = 0 → env.buildBackendOk tn = true →
    AgentEffect.remoteDelete tn k ∈ res.2)

/-!
The theorems: proof layer and claim results, in the same part order as
the definitions above.
-/

-- Sanity checks mirroring the Rust unit tests in block_map.rs.
example : (BlockMap.insertAll [(100, 200), (150, 300)]).intervals = [(100, 300)] := by decide

example : (BlockMap.insertAll [(100, 200), (200, 300)]).intervals = [(100, 300)] := by decide

example : (BlockMap.insertAll [(100, 200), (300, 400), (500, 600), (150, 350)]).intervals
    = [(100, 400), (500, 600)] := by decide

example : (BlockMap.insertAll [(100, 200), (300, 400), (50, 500)]).cached_bytes = 450 := by
  decide

example : (BlockMap.insertAll [(100, 200), (300, 400)]).missing_ranges (0, 500)
    = [(0, 100), (200, 300), (400, 500)] := by decide

example : (BlockMap.insertAll [(0, 500)]).missing_ranges (0, 500) = [] := by decide

example : BlockMap.missing_ranges ⟨[]⟩ (0, 1000) = [(0, 1000)] := by decide

example : (BlockMap.insertAll [(100, 300)]).range_present (100, 300) = true := by decide

example : (BlockMap.insertAll [(100, 300)]).range_present (99, 300) = false := by decide

example : (BlockMap.insertAll [(100, 200), (210, 300)]).coalesced_missing (0, 500) 20
    = [(0, 100), (200, 210), (300, 500)] := by decide

example : (BlockMap.insertAll [(100, 200), (210, 300)]).coalesced_missing (0, 500) 100
    = [(0, 500)] := by decide

example : (BlockMap.insertAll [(100, 100)]).interval_count = 0 := by decide

example : (BlockMap.insertAll [(300, 400), (100, 200)]).intervals
    = [(100, 200), (300, 400)] := by decide

theorem coverSet_nil : coverSet [] = ∅ := rfl

theorem coverSet_cons (r : Nat × Nat) (l : List (Nat × Nat)) :
    coverSet (r :: l) = Finset.Ico r.1 r.2 ∪ coverSet l := rfl

theorem coverSet_append (l₁ l₂ : List (Nat × Nat)) :
    coverSet (l₁ ++ l₂) = coverSet l₁ ∪ coverSet l₂ := by
  induction l₁ with
  | nil => simp [coverSet_nil, coverSet]
  | cons r l ih => simp [coverSet_cons, ih, Finset.union_assoc]

theorem mem_coverSet {x : Nat} {l : List (Nat × Nat)} :
    x ∈ coverSet l ↔ ∃ r ∈ l, r.1 ≤ x ∧ x < r.2 := by
  induction l with
  | nil => simp [coverSet_nil]
  | cons r l ih => simp [coverSet_cons, ih, Finset.mem_Ico]

theorem insLoop_cons (r : Nat × Nat) (rest : List (Nat × Nat)) (i ms me first last : Nat) :
    insLoop (r :: rest) i ms me first last =
      if r.2 < ms ∨ r.1 > me then insLoop rest (i + 1) ms me first last
      else insLoop rest (i + 1) (min ms r.1) (max me r.2) (min first i) (i + 1) := rfl

theorem insLoop_skip (A rest : List (Nat × Nat)) :
    ∀ i ms me first last : Nat, (∀ r ∈ A, r.2 < ms ∨ me < r.1) →
    insLoop (A ++ rest) i ms me first last = insLoop rest (i + A.length) ms me first last := by
  induction A with
  | nil => intro i ms me first last _; simp
  | cons a A ih =>
    intro i ms me first last h
    have ha : a.2 < ms ∨ a.1 > me := h a (List.mem_cons_self a A)
    rw [List.cons_append, insLoop_cons, if_pos ha,
      ih (i + 1) ms me first last fun r hr => h r (List.mem_cons_of_mem a hr)]
    congr 1
    simp [List.length_cons]
    omega

theorem insLoop_merge (B : List (Nat × Nat)) :
    ∀ b : Nat × Nat, ∀ rest : List (Nat × Nat), ∀ i ms me first last : Nat,
    (∀ r ∈ b :: B, ms ≤ r.2 ∧ r.1 ≤ me) →
    insLoop ((b :: B) ++ rest) i ms me first last =
      insLoop rest (i + (b :: B).length)
        ((b :: B).foldl (fun m r => min m r.1) ms)
        ((b :: B).foldl (fun m r => max m r.2) me)
        (min first i) (i + (b :: B).length) := by
  induction B with
  | nil =>
    intro b rest i ms me first last h
    have hb := h b (List.mem_cons_self b [])
    have hcond : ¬(b.2 < ms ∨ b.1 > me) := by omega
    rw [List.cons_append, List.nil_append, insLoop_cons, if_neg hcond]
    simp [List.foldl]
  | cons b2 B2 ih =>
    intro b rest i ms me first last h
    have hb := h b (List.mem_cons_self b (b2 :: B2))
    have hcond : ¬(b.2 < ms ∨ b.1 > me) := by omega
    rw [List.cons_append, insLoop_cons, if_neg hcond]
    have h' : ∀ r ∈ b2 :: B2, min ms b.1 ≤ r.2 ∧ r.1 ≤ max me b.2 := by
      intro r hr
      have := h r (List.mem_cons_of_mem b hr)
      exact ⟨le_trans (min_le_left _ _) this.1, le_trans this.2 (le_max_left _ _)⟩
    rw [ih b2 rest (i + 1) (min ms b.1) (max me b.2) (min first i) (i + 1) h']
    have hmin : min (min first i) (i + 1) = min first i := by omega
    rw [hmin]
    congr 1 <;> simp [List.length_cons] <;> omega

theorem foldl_min_le (B : List (Nat × Nat)) :
    ∀ a : Nat, B.foldl (fun m r => min m r.1) a ≤ a := by
  induction B with
  | nil => intro a; simp
  | cons b B ih =>
    intro a
    exact le_trans (ih (min a b.1)) (min_le_left _ _)

theorem le_foldl_max (B : List (Nat × Nat)) :
    ∀ a : Nat, a ≤ B.foldl (fun m r => max m r.2) a := by
  induction B with
  | nil => intro a; simp
  | cons b B ih =>
    intro a
    exact le_trans (le_max_left _ _) (ih (max a b.2))

theorem lt_foldl_min (B : List (Nat × Nat)) :
    ∀ a x : Nat, x < a → (∀ r ∈ B, x < r.1) → x < B.foldl (fun m r => min m r.1) a := by
  induction B with
  | nil => intro a x hx _; simpa using hx
  | cons b B ih =>
    intro a x hx h
    exact ih (min a b.1) x (lt_min hx (h b (List.mem_cons_self b B)))
      fun r hr => h r (List.mem_cons_of_mem b hr)

theorem foldl_max_lt (B : List (Nat × Nat)) :
    ∀ a x : Nat, a < x → (∀ r ∈ B, r.2 < x) → B.foldl (fun m r => max m r.2) a < x := by
  induction B with
  | nil => intro a x hx _; simpa using hx
  | cons b B ih =>
    intro a x hx h
    exact ih (max a b.2) x (max_lt hx (h b (List.mem_cons_self b B)))
      fun r hr => h r (List.mem_cons_of_mem b hr)

theorem bsLoop_partition (cmp : Nat → Ordering) (p : Nat) :
    ∀ fuel left right : Nat, right - left < fuel → left ≤ p → p ≤ right →
    (∀ k, left ≤ k → k < p → cmp k = Ordering.lt) →
    (∀ k, p ≤ k → k < right → cmp k = Ordering.gt) →
    bsLoop cmp fuel left right = Sum.inr p := by
  intro fuel
  induction fuel with
  | zero => intro left right hf _ _ _ _; omega
  | succ fuel ih =>
    intro left right hf hlp hpr hlt hgt
    by_cases hlr : left < right
    · rw [bsLoop, if_pos hlr]
      have hmid1 : left ≤ left + (right - left) / 2 := by omega
      have hmid2 : left + (right - left) / 2 < right := by omega
      rcases lt_or_ge (left + (right - left) / 2) p with hm | hm
      · simp only [hlt _ hmid1 hm]
        exact ih (left + (right - left) / 2 + 1) right (by omega) (by omega) hpr
          (fun k hk1 hk2 => hlt k (by omega) hk2)
          hgt
      · simp only [hgt _ hm hmid2]
        exact ih left (left + (right - left) / 2) (by omega) hlp (by omega)
          hlt (fun k hk1 hk2 => hgt k hk1 (by omega))
    · rw [bsLoop, if_neg hlr]
      have : left = p := by omega
      rw [this]

theorem insLoop_nil (i ms me first last : Nat) :
    insLoop [] i ms me first last = (ms, me, first, last) := rfl

theorem bsearchStart_partition (l : List (Nat × Nat)) (key p : Nat)
    (hp : p ≤ l.length)
    (hlt : ∀ k, (h : k < l.length) → k < p → (l.get ⟨k, h⟩).1 < key)
    (hgt : ∀ k, (h : k < l.length) → p ≤ k → key < (l.get ⟨k, h⟩).1) :
    bsearchStart l key = Sum.inr p := by
  apply bsLoop_partition _ p (l.length + 1) 0 l.length (by omega) (by omega) hp
  · intro k _ hk
    have hkl : k < l.length := lt_of_lt_of_le hk hp
    have : (l.getD k (0, 0)).1 < key := by
      rw [List.getD_eq_getElem l (0, 0) hkl]
      exact hlt k hkl hk
    simpa [Nat.compare_eq_lt] using this
  · intro k hk hkl
    have : key < (l.getD k (0, 0)).1 := by
      rw [List.getD_eq_getElem l (0, 0) hkl]
      exact hgt k hkl hk
    simpa [Nat.compare_eq_gt] using this

theorem insert_split (A B C : List (Nat × Nat)) (lo hi : Nat) (hlh : lo < hi)
    (hA : ∀ r ∈ A, r.2 < lo)
    (hAne : ∀ r ∈ A, r.1 < r.2)
    (hB : ∀ r ∈ B, lo ≤ r.2 ∧ r.1 ≤ hi)
    (hC : ∀ r ∈ C, B.foldl (fun m r => max m r.2) hi < r.1) :
    BlockMap.insert ⟨A ++ B ++ C⟩ (lo, hi) =
      ⟨A ++ [(B.foldl (fun m r => min m r.1) lo,
              B.foldl (fun m r => max m r.2) hi)] ++ C⟩ := by
  cases B with
  | nil =>
    simp only [List.foldl_nil, List.append_nil] at hC ⊢
    have h1 : ∀ r ∈ A ++ C, r.2 < lo ∨ hi < r.1 := by
      intro r hr
      rcases List.mem_append.1 hr with h | h
      · exact Or.inl (hA r h)
      · exact Or.inr (hC r h)
    have hloop : insLoop (A ++ C) 0 lo hi (A ++ C).length 0
        = (lo, hi, (A ++ C).length, 0) := by
      have := insLoop_skip (A ++ C) [] 0 lo hi (A ++ C).length 0 h1
      rw [List.append_nil] at this
      rw [this, insLoop_nil]
    have hbs : bsearchStart (A ++ C) lo = Sum.inr A.length := by
      apply bsearchStart_partition _ _ _ (by simp)
      · intro k h hk
        have hmem : (A ++ C).get ⟨k, h⟩ ∈ A := by
          have e1 : (A ++ C).get ⟨k, h⟩ = (A ++ C)[k] := rfl
          rw [e1, List.getElem_append_left hk]
          exact List.getElem_mem _
        have h2 := hA _ hmem
        have h3 := hAne _ hmem
        omega
      · intro k h hk
        have hkC : k - A.length < C.length := by
          have := h
          simp only [List.length_append] at this
          omega
        have hmem : (A ++ C).get ⟨k, h⟩ ∈ C := by
          have e1 : (A ++ C).get ⟨k, h⟩ = (A ++ C)[k] := rfl
          rw [e1, List.getElem_append_right hk]
          exact List.getElem_mem _
        exact lt_trans hlh (hC _ hmem)
    show BlockMap.insert ⟨A ++ C⟩ (lo, hi) = ⟨A ++ [(lo, hi)] ++ C⟩
    rw [BlockMap.insert]
    simp only [hloop, hbs]
    rw [if_neg (by omega : ¬((lo, hi).2 ≤ (lo, hi).1)), if_pos (by omega : (0 : Nat) ≤ (A ++ C).length)]
    simp only [List.take_left, List.drop_left]
  | cons b B' =>
    have hassoc : A ++ (b :: B') ++ C = A ++ ((b :: B') ++ C) := by
      rw [List.append_assoc]
    have hlen : A.length ≤ (A ++ (b :: B') ++ C).length := by
      simp [List.length_append]
    have hloop : insLoop (A ++ (b :: B') ++ C) 0 lo hi (A ++ (b :: B') ++ C).length 0
        = ((b :: B').foldl (fun m r => min m r.1) lo,
           (b :: B').foldl (fun m r => max m r.2) hi,
           A.length, A.length + (b :: B').length) := by
      rw [hassoc, insLoop_skip A ((b :: B') ++ C) 0 lo hi _ 0
        (fun r hr => Or.inl (hA r hr))]
      rw [insLoop_merge B' b C (0 + A.length) lo hi _ 0 hB]
      have hskip : ∀ r ∈ C, r.2 < (b :: B').foldl (fun m r => min m r.1) lo ∨
          (b :: B').foldl (fun m r => max m r.2) hi < r.1 :=
        fun r hr => Or.inr (hC r hr)
      have hrest := insLoop_skip C [] (0 + A.length + (b :: B').length)
        ((b :: B').foldl (fun m r => min m r.1) lo)
        ((b :: B').foldl (fun m r => max m r.2) hi)
        (min (A ++ ((b :: B') ++ C)).length (0 + A.length))
        (0 + A.length + (b :: B').length) hskip
      rw [List.append_nil] at hrest
      rw [hrest, insLoop_nil]
      have hm : min (A ++ ((b :: B') ++ C)).length (0 + A.length) = A.length := by
        simp [List.length_append]
      rw [hm]
      norm_num
    rw [BlockMap.insert]
    simp only [hloop]
    rw [if_neg (by omega : ¬((lo, hi).2 ≤ (lo, hi).1))]
    rw [if_neg (by simp only [List.length_cons]; omega :
      ¬(A.length + (b :: B').length ≤ A.length))]
    have htake : (A ++ (b :: B') ++ C).take A.length = A := by
      rw [List.append_assoc]
      exact List.take_left A _
    have hdrop : (A ++ (b :: B') ++ C).drop (A.length + (b :: B').length) = C := by
      have : A.length + (b :: B').length = (A ++ (b :: B')).length := by
        simp [List.length_append]
      rw [this]
      exact List.drop_left _ C
    rw [htake, hdrop]

theorem mem_dropWhile_lo (lo : Nat) (l : List (Nat × Nat))
    (hne : ∀ r ∈ l, r.1 < r.2) (hp : l.Pairwise fun a b => a.2 < b.1) :
    ∀ r ∈ l.dropWhile (fun r => decide (r.2 < lo)), lo ≤ r.2 := by
  induction l with
  | nil => intro r hr; simp [List.dropWhile] at hr
  | cons a l ih =>
    intro r hr
    rw [List.dropWhile_cons] at hr
    by_cases hc : a.2 < lo
    · simp only [decide_eq_true_eq, if_pos hc] at hr
      exact ih (fun s hs => hne s (List.mem_cons_of_mem a hs)) hp.of_cons r hr
    · simp only [decide_eq_true_eq, if_neg hc] at hr
      rcases List.mem_cons.1 hr with h | h
      · subst h; omega
      · have h1 := (List.pairwise_cons.1 hp).1 r h
        have h2 := hne r (List.mem_cons_of_mem a h)
        omega

theorem mem_dropWhile_hi (hi : Nat) (l : List (Nat × Nat))
    (hne : ∀ r ∈ l, r.1 < r.2) (hp : l.Pairwise fun a b => a.2 < b.1) :
    ∀ r ∈ l.dropWhile (fun r => decide (r.1 ≤ hi)), hi < r.1 := by
  induction l with
  | nil => intro r hr; simp [List.dropWhile] at hr
  | cons a l ih =>
    intro r hr
    rw [List.dropWhile_cons] at hr
    by_cases hc : a.1 ≤ hi
    · simp only [decide_eq_true_eq, if_pos hc] at hr
      exact ih (fun s hs => hne s (List.mem_cons_of_mem a hs)) hp.of_cons r hr
    · simp only [decide_eq_true_eq, if_neg hc] at hr
      rcases List.mem_cons.1 hr with h | h
      · subst h; omega
      · have h1 := (List.pairwise_cons.1 hp).1 r h
        have h2 := hne a (List.mem_cons_self a l)
        omega

theorem Ico_foldl_merge (B : List (Nat × Nat)) :
    ∀ lo hi : Nat, lo < hi → (∀ r ∈ B, r.1 < r.2 ∧ lo ≤ r.2 ∧ r.1 ≤ hi) →
    Finset.Ico (B.foldl (fun m r => min m r.1) lo) (B.foldl (fun m r => max m r.2) hi)
      = Finset.Ico lo hi ∪ coverSet B := by
  induction B with
  | nil => intro lo hi _ _; simp [coverSet_nil]
  | cons b B ih =>
    intro lo hi hlh h
    obtain ⟨hb1, hb2, hb3⟩ := h b (List.mem_cons_self b B)
    have h' : ∀ r ∈ B, r.1 < r.2 ∧ min lo b.1 ≤ r.2 ∧ r.1 ≤ max hi b.2 := by
      intro r hr
      obtain ⟨x1, x2, x3⟩ := h r (List.mem_cons_of_mem b hr)
      exact ⟨x1, le_trans (min_le_left _ _) x2, le_trans x3 (le_max_left _ _)⟩
    have hlh' : min lo b.1 < max hi b.2 :=
      lt_of_le_of_lt (min_le_left _ _) (lt_of_lt_of_le hlh (le_max_left _ _))
    rw [List.foldl_cons, List.foldl_cons, ih (min lo b.1) (max hi b.2) hlh' h', coverSet_cons]
    have hu : Finset.Ico (min lo b.1) (max hi b.2)
        = Finset.Ico lo hi ∪ Finset.Ico b.1 b.2 := by
      ext x
      simp only [Finset.mem_Ico, Finset.mem_union]
      omega
    rw [hu, Finset.union_assoc]

theorem cached_bytes_eq_card (l : List (Nat × Nat)) (hwf : IntervalsWF l) :
    BlockMap.cached_bytes ⟨l⟩ = (coverSet l).card := by
  induction l with
  | nil => simp [BlockMap.cached_bytes, coverSet_nil]
  | cons r l ih =>
    obtain ⟨hne, hp⟩ := hwf
    have hwf' : IntervalsWF l := ⟨fun s hs => hne s (List.mem_cons_of_mem _ hs), hp.of_cons⟩
    have hdisj : Disjoint (Finset.Ico r.1 r.2) (coverSet l) := by
      rw [Finset.disjoint_left]
      intro x hx hx'
      rw [Finset.mem_Ico] at hx
      rw [mem_coverSet] at hx'
      obtain ⟨s, hs, hs1, hs2⟩ := hx'
      have := (List.pairwise_cons.1 hp).1 s hs
      omega
    have hcb : BlockMap.cached_bytes ⟨r :: l⟩ = (r.2 - r.1) + BlockMap.cached_bytes ⟨l⟩ := by
      simp [BlockMap.cached_bytes]
    rw [hcb, coverSet_cons, Finset.card_union_of_disjoint hdisj, Nat.card_Ico, ih hwf']

theorem insert_WF_cover (l : List (Nat × Nat)) (lo hi : Nat) (hwf : IntervalsWF l) :
    IntervalsWF (BlockMap.insert ⟨l⟩ (lo, hi)).intervals ∧
    coverSet (BlockMap.insert ⟨l⟩ (lo, hi)).intervals = Finset.Ico lo hi ∪ coverSet l := by
  obtain ⟨hne, hp⟩ := hwf
  by_cases hempty : hi ≤ lo
  · have hid : BlockMap.insert ⟨l⟩ (lo, hi) = ⟨l⟩ := by
      rw [BlockMap.insert]; exact if_pos hempty
    rw [hid, Finset.Ico_eq_empty (by omega), Finset.empty_union]
    exact ⟨⟨hne, hp⟩, rfl⟩
  · push_neg at hempty
    set A := l.takeWhile (fun r => decide (r.2 < lo)) with hAdef
    set R1 := l.dropWhile (fun r => decide (r.2 < lo)) with hR1def
    set B := R1.takeWhile (fun r => decide (r.1 ≤ hi)) with hBdef
    set C := R1.dropWhile (fun r => decide (r.1 ≤ hi)) with hCdef
    have hR1sub : R1.Sublist l := List.dropWhile_sublist _
    have hR1ne : ∀ r ∈ R1, r.1 < r.2 := fun r hr => hne r (hR1sub.subset hr)
    have hR1p : R1.Pairwise fun a b => a.2 < b.1 := hp.sublist hR1sub
    have hAC : l = A ++ B ++ C := by
      rw [List.append_assoc, hBdef, hCdef, List.takeWhile_append_dropWhile, hAdef, hR1def,
        List.takeWhile_append_dropWhile]
    have hAsub : A.Sublist l := List.takeWhile_sublist _
    have hBsub : B.Sublist R1 := List.takeWhile_sublist _
    have hCsub : C.Sublist R1 := List.dropWhile_sublist _
    have hA : ∀ r ∈ A, r.2 < lo := by
      intro r hr
      have := List.mem_takeWhile_imp hr
      simpa using this
    have hAne : ∀ r ∈ A, r.1 < r.2 := fun r hr => hne r (hAsub.subset hr)
    have hBhi : ∀ r ∈ B, r.1 ≤ hi := by
      intro r hr
      have := List.mem_takeWhile_imp hr
      simpa using this
    have hBlo : ∀ r ∈ B, lo ≤ r.2 := fun r hr =>
      mem_dropWhile_lo lo l hne hp r (hBsub.subset hr)
    have hBne : ∀ r ∈ B, r.1 < r.2 := fun r hr => hR1ne r (hBsub.subset hr)
    have hChi : ∀ r ∈ C, hi < r.1 := fun r hr => mem_dropWhile_hi hi R1 hR1ne hR1p r hr
    have hCne : ∀ r ∈ C, r.1 < r.2 := fun r hr => hR1ne r (hCsub.subset hr)
    have hpABC : (A ++ B ++ C).Pairwise (fun a b => a.2 < b.1) := hAC ▸ hp
    obtain ⟨hpAB, hpC, hcrossC⟩ := List.pairwise_append.1 hpABC
    obtain ⟨hpA, hpB, hcrossAB⟩ := List.pairwise_append.1 hpAB
    have hBmerge : ∀ r ∈ B, lo ≤ r.2 ∧ r.1 ≤ hi := fun r hr => ⟨hBlo r hr, hBhi r hr⟩
    have hCfold : ∀ r ∈ C, B.foldl (fun m r => max m r.2) hi < r.1 := by
      intro r hr
      exact foldl_max_lt B hi r.1 (hChi r hr)
        (fun b hb => hcrossC b (List.mem_append.2 (Or.inr hb)) r hr)
    have hins := insert_split A B C lo hi hempty hA hAne hBmerge hCfold
    rw [hAC, hins]
    set msF := B.foldl (fun m r => min m r.1) lo with hmsF
    set meF := B.foldl (fun m r => max m r.2) hi with hmeF
    have hms_le : msF ≤ lo := foldl_min_le B lo
    have hme_ge : hi ≤ meF := le_foldl_max B hi
    constructor
    · constructor
      · intro r hr
        rcases List.mem_append.1 hr with h1 | h1
        · rcases List.mem_append.1 h1 with h2 | h2
          · exact hAne r h2
          · rcases List.mem_singleton.1 h2 with rfl
            show msF < meF
            omega
        · exact hCne r h1
      · rw [List.pairwise_append]
        refine ⟨?_, hpC, ?_⟩
        · rw [List.pairwise_append]
          refine ⟨hpA, List.pairwise_singleton _ _, ?_⟩
          intro a ha m hm
          rcases List.mem_singleton.1 hm with rfl
          show a.2 < msF
          exact lt_foldl_min B lo a.2 (hA a ha) (fun b hb => hcrossAB a ha b hb)
        · intro x hx c hc
          rcases List.mem_append.1 hx with h2 | h2
          · exact hcrossC x (List.mem_append.2 (Or.inl h2)) c hc
          · rcases List.mem_singleton.1 h2 with rfl
            show meF < c.1
            exact hCfold c hc
    · have hmid : coverSet [(msF, meF)] = Finset.Ico msF meF := by
        simp [coverSet_cons, coverSet_nil]
      have hmerge : Finset.Ico msF meF = Finset.Ico lo hi ∪ coverSet B := by
        rw [hmsF, hmeF]
        exact Ico_foldl_merge B lo hi hempty (fun r hr => ⟨hBne r hr, hBlo r hr, hBhi r hr⟩)
      rw [coverSet_append, coverSet_append, coverSet_append, coverSet_append, hmid, hmerge]
      ext x
      simp only [Finset.mem_union]
      tauto

theorem insertAll_WF_cover (rs : List (Nat × Nat)) :
    ∀ bm : BlockMap, IntervalsWF bm.intervals →
    IntervalsWF (rs.foldl BlockMap.insert bm).intervals ∧
    coverSet (rs.foldl BlockMap.insert bm).intervals = coverSet rs ∪ coverSet bm.intervals := by
  induction rs with
  | nil => intro bm h; exact ⟨h, by simp [coverSet_nil]⟩
  | cons r rs ih =>
    intro bm h
    have hstep := insert_WF_cover bm.intervals r.1 r.2 h
    have hfold : (r :: rs).foldl BlockMap.insert bm = rs.foldl BlockMap.insert (bm.insert r) :=
      List.foldl_cons _ _
    have hbm : BlockMap.insert ⟨bm.intervals⟩ (r.1, r.2) = bm.insert r := rfl
    rw [hbm] at hstep
    have hrec := ih (bm.insert r) hstep.1
    rw [hfold]
    refine ⟨hrec.1, ?_⟩
    rw [hrec.2, hstep.2, coverSet_cons]
    ext x
    simp only [Finset.mem_union]
    tauto

/-- C1: for every sequence of inserts starting from the empty map, the stored
interval list is sorted by start (`a.1 < b.1` pairwise), pairwise
non-overlapping (`a.2 ≤ b.1`) and non-adjacent (`a.2 ≠ b.1`), and
`cached_bytes` equals the number of bytes in the union of all inserted ranges
(`coverSet rs`, which ignores empty ranges since `Finset.Ico s e = ∅` when
`s ≥ e`).  Since `insertAll (rs.take n)` ranges over all prefixes as `rs`
ranges over all lists, this covers the state after each insert. -/
theorem C1_insert_invariant_and_cached_bytes (rs : List (Nat × Nat)) :
    (BlockMap.insertAll rs).intervals.Pairwise
        (fun a b => a.1 < b.1 ∧ a.2 ≤ b.1 ∧ a.2 ≠ b.1) ∧
    (BlockMap.insertAll rs).cached_bytes = (coverSet rs).card := by
  have h := insertAll_WF_cover rs ⟨[]⟩ ⟨by simp, List.Pairwise.nil⟩
  rw [BlockMap.insertAll]
  constructor
  · refine h.1.2.imp_of_mem ?_
    intro a b ha _ hr
    have := h.1.1 a ha
    exact ⟨by omega, by omega, by omega⟩
  · have hc := cached_bytes_eq_card (rs.foldl BlockMap.insert ⟨[]⟩).intervals h.1
    have hcover : coverSet (rs.foldl BlockMap.insert ⟨[]⟩).intervals = coverSet rs := by
      rw [h.2, coverSet_nil, Finset.union_empty]
    rw [← hcover]
    exact hc

theorem missLoop_cons (r : Nat × Nat) (rest : List (Nat × Nat)) (cursor qend : Nat)
    (acc : List (Nat × Nat)) :
    missLoop (r :: rest) cursor qend acc =
      if qend ≤ r.1 then (acc, cursor)
      else if r.2 ≤ cursor then missLoop rest cursor qend acc
      else missLoop rest (max cursor r.2) qend
        (if cursor < r.1 then acc ++ [(cursor, min r.1 qend)] else acc) := rfl

theorem missLoop_acc (l : List (Nat × Nat)) :
    ∀ cursor qend : Nat, ∀ acc : List (Nat × Nat),
    missLoop l cursor qend acc
      = (acc ++ (missLoop l cursor qend []).1, (missLoop l cursor qend []).2) := by
  induction l with
  | nil => intro cursor qend acc; simp [missLoop]
  | cons r rest ih =>
    intro cursor qend acc
    rw [missLoop_cons, missLoop_cons]
    by_cases h1 : qend ≤ r.1
    · simp [if_pos h1]
    · rw [if_neg h1, if_neg h1]
      by_cases h2 : r.2 ≤ cursor
      · rw [if_pos h2, if_pos h2]; exact ih cursor qend acc
      · rw [if_neg h2, if_neg h2]
        by_cases h3 : cursor < r.1
        · rw [if_pos h3, if_pos h3]
          simp only [List.nil_append]
          rw [ih (max cursor r.2) qend (acc ++ [(cursor, min r.1 qend)]),
            ih (max cursor r.2) qend [(cursor, min r.1 qend)]]
          simp
        · rw [if_neg h3, if_neg h3]
          rw [ih (max cursor r.2) qend acc]

theorem missLoop_break (L : List (Nat × Nat)) (c q : Nat) (h : ∀ s ∈ L, q ≤ s.1) :
    missLoop L c q [] = ([], c) := by
  cases L with
  | nil => rfl
  | cons s rest => rw [missLoop_cons, if_pos (h s (List.mem_cons_self s rest))]

theorem missing_ranges_eq (l : List (Nat × Nat)) (q : Nat × Nat) (h : q.1 < q.2) :
    BlockMap.missing_ranges ⟨l⟩ q = missFull l q.1 q.2 := by
  rw [BlockMap.missing_ranges, missFull, if_neg (by omega : ¬(q.2 ≤ q.1))]

theorem sdiff_Ico_Ico (c q a b : Nat) :
    Finset.Ico c q \ Finset.Ico a b
      = Finset.Ico c (min a q) ∪ Finset.Ico (max c b) q := by
  ext x
  simp only [Finset.mem_sdiff, Finset.mem_union, Finset.mem_Ico]
  omega

theorem disjoint_Ico_coverSet (a b : Nat) (L : List (Nat × Nat)) (h : ∀ s ∈ L, b ≤ s.1) :
    Disjoint (Finset.Ico a b) (coverSet L) := by
  rw [Finset.disjoint_left]
  intro x hx hx'
  rw [Finset.mem_Ico] at hx
  rw [mem_coverSet] at hx'
  obtain ⟨s, hs, h1, h2⟩ := hx'
  have := h s hs
  omega

theorem sdiff_union_split (s t u : Finset Nat) : s \ (t ∪ u) = (s \ t) \ u := by
  rw [← Finset.sup_eq_union]
  exact sdiff_sdiff_left.symm

theorem missFull_spec (l : List (Nat × Nat)) :
    ∀ cursor qend : Nat, cursor < qend →
    (∀ r ∈ l, r.1 < r.2) → l.Pairwise (fun a b => a.2 < b.1) →
    (∀ m ∈ missFull l cursor qend, cursor ≤ m.1 ∧ m.1 < m.2 ∧ m.2 ≤ qend) ∧
    (missFull l cursor qend).Pairwise (fun a b => a.2 < b.1) ∧
    coverSet (missFull l cursor qend) = Finset.Ico cursor qend \ coverSet l := by
  induction l with
  | nil =>
    intro cursor qend hcq _ _
    have he : missFull [] cursor qend = [(cursor, qend)] := by
      rw [missFull]; simp [missLoop, if_pos hcq]
    rw [he]
    refine ⟨?_, List.pairwise_singleton _ _, ?_⟩
    · intro m hm
      rcases List.mem_singleton.1 hm with rfl
      exact ⟨le_refl _, hcq, le_refl _⟩
    · simp [coverSet_cons, coverSet_nil]
  | cons r rest ih =>
    intro cursor qend hcq hne hp
    have hrne := hne r (List.mem_cons_self r rest)
    have hrestne : ∀ s ∈ rest, s.1 < s.2 := fun s hs => hne s (List.mem_cons_of_mem r hs)
    have hrestp := hp.of_cons
    have hfar : ∀ s ∈ rest, r.2 < s.1 := (List.pairwise_cons.1 hp).1
    by_cases h1 : qend ≤ r.1
    · have hml : missLoop (r :: rest) cursor qend [] = ([], cursor) := by
        rw [missLoop_cons, if_pos h1]
      have he : missFull (r :: rest) cursor qend = [(cursor, qend)] := by
        rw [missFull, hml]; simp [if_pos hcq]
      rw [he]
      refine ⟨?_, List.pairwise_singleton _ _, ?_⟩
      · intro m hm
        rcases List.mem_singleton.1 hm with rfl
        exact ⟨le_refl _, hcq, le_refl _⟩
      · have e0 : coverSet [(cursor, qend)] = Finset.Ico cursor qend := by
          simp [coverSet_cons, coverSet_nil]
        have e1 : Finset.Ico cursor qend \ Finset.Ico r.1 r.2 = Finset.Ico cursor qend := by
          apply sdiff_eq_self_iff_disjoint.2
          rw [Finset.disjoint_left]
          intro x hx hx'
          rw [Finset.mem_Ico] at hx hx'
          omega
        have e2 : ∀ s ∈ rest, qend ≤ s.1 := by
          intro s hs
          have := hfar s hs
          omega
        rw [e0, coverSet_cons, sdiff_union_split, e1]
        exact (sdiff_eq_self_iff_disjoint.2
          ((disjoint_Ico_coverSet cursor qend rest e2).symm)).symm
    · by_cases h2 : r.2 ≤ cursor
      · have hml : missLoop (r :: rest) cursor qend [] = missLoop rest cursor qend [] := by
          rw [missLoop_cons, if_neg h1, if_pos h2]
        have he : missFull (r :: rest) cursor qend = missFull rest cursor qend := by
          rw [missFull, missFull, hml]
        obtain ⟨ihb, ihp, ihc⟩ := ih cursor qend hcq hrestne hrestp
        rw [he]
        refine ⟨ihb, ihp, ?_⟩
        rw [ihc, coverSet_cons, sdiff_union_split]
        have e1 : Finset.Ico cursor qend \ Finset.Ico r.1 r.2 = Finset.Ico cursor qend := by
          apply sdiff_eq_self_iff_disjoint.2
          rw [Finset.disjoint_left]
          intro x hx hx'
          rw [Finset.mem_Ico] at hx hx'
          omega
        rw [e1]
      · have hcr2 : cursor < r.2 := by omega
        have hr1q : r.1 < qend := by omega
        have hc' : max cursor r.2 = r.2 := max_eq_right (le_of_lt hcr2)
        have hmin : min r.1 qend = r.1 := min_eq_left (le_of_lt hr1q)
        set g := (if cursor < r.1 then [(cursor, r.1)] else ([] : List (Nat × Nat))) with hgdef
        have hml : missLoop (r :: rest) cursor qend [] = missLoop rest r.2 qend g := by
          rw [missLoop_cons, if_neg h1, if_neg h2, hc']
          by_cases h3 : cursor < r.1
          · rw [if_pos h3, hgdef, if_pos h3, List.nil_append, hmin]
          · rw [if_neg h3, hgdef, if_neg h3]
        have hgb : ∀ m ∈ g, cursor ≤ m.1 ∧ m.1 < m.2 ∧ m.2 ≤ qend := by
          intro m hm
          rw [hgdef] at hm
          by_cases h3 : cursor < r.1
          · rw [if_pos h3] at hm
            rcases List.mem_singleton.1 hm with rfl
            exact ⟨le_refl _, h3, le_of_lt hr1q⟩
          · rw [if_neg h3] at hm
            simp at hm
        have hgcov : coverSet g = Finset.Ico cursor r.1 := by
          rw [hgdef]
          by_cases h3 : cursor < r.1
          · rw [if_pos h3]; simp [coverSet_cons, coverSet_nil]
          · rw [if_neg h3, coverSet_nil, Finset.Ico_eq_empty (by omega)]
        have hrest_far : ∀ s ∈ rest, r.1 ≤ s.1 := by
          intro s hs
          have := hfar s hs
          omega
        by_cases hq : r.2 < qend
        · obtain ⟨ihb, ihp, ihc⟩ := ih r.2 qend hq hrestne hrestp
          have hfull : missFull (r :: rest) cursor qend = g ++ missFull rest r.2 qend := by
            rw [missFull, missFull, hml, missLoop_acc rest r.2 qend g]
            by_cases hend : (missLoop rest r.2 qend []).2 < qend
            · rw [if_pos hend, if_pos hend, List.append_assoc]
            · rw [if_neg hend, if_neg hend]
          rw [hfull]
          refine ⟨?_, ?_, ?_⟩
          · intro m hm
            rcases List.mem_append.1 hm with hmg | hmt
            · exact hgb m hmg
            · have := ihb m hmt
              exact ⟨by omega, this.2.1, this.2.2⟩
          · rw [List.pairwise_append]
            refine ⟨?_, ihp, ?_⟩
            · rw [hgdef]
              by_cases h3 : cursor < r.1
              · rw [if_pos h3]; exact List.pairwise_singleton _ _
              · rw [if_neg h3]; exact List.Pairwise.nil
            · intro x hx m hm
              have hxb := hgb x hx
              have hxg : x.2 ≤ r.1 := by
                rw [hgdef] at hx
                by_cases h3 : cursor < r.1
                · rw [if_pos h3] at hx
                  rcases List.mem_singleton.1 hx with rfl
                  exact le_refl _
                · rw [if_neg h3] at hx
                  simp at hx
              have := (ihb m hm).1
              omega
          · rw [coverSet_append, hgcov, ihc, coverSet_cons, sdiff_union_split,
              sdiff_Ico_Ico, hmin, hc', Finset.union_sdiff_distrib]
            have e1 : Finset.Ico cursor r.1 \ coverSet rest = Finset.Ico cursor r.1 :=
              sdiff_eq_self_iff_disjoint.2
                ((disjoint_Ico_coverSet cursor r.1 rest hrest_far).symm)
            rw [e1]
        · have hml2 : missLoop (r :: rest) cursor qend [] = (g, r.2) := by
            have hbreak : ∀ s ∈ rest, qend ≤ s.1 := by
              intro s hs
              have := hfar s hs
              omega
            rw [hml, missLoop_acc rest r.2 qend g, missLoop_break rest r.2 qend hbreak]
            simp
          have hfull : missFull (r :: rest) cursor qend = g := by
            rw [missFull, hml2, if_neg (by omega : ¬(r.2 < qend))]
          rw [hfull]
          refine ⟨hgb, ?_, ?_⟩
          · rw [hgdef]
            by_cases h3 : cursor < r.1
            · rw [if_pos h3]; exact List.pairwise_singleton _ _
            · rw [if_neg h3]; exact List.Pairwise.nil
          · rw [hgcov, coverSet_cons, sdiff_union_split, sdiff_Ico_Ico, hmin, hc',
              Finset.Ico_eq_empty (by omega : ¬(r.2 < qend)), Finset.union_empty]
            exact (sdiff_eq_self_iff_disjoint.2
              ((disjoint_Ico_coverSet cursor r.1 rest hrest_far).symm)).symm

theorem pairwise_mem_trichotomy {α : Type} {R : α → α → Prop} {l : List α}
    (hp : l.Pairwise R) {a b : α} (ha : a ∈ l) (hb : b ∈ l) :
    a = b ∨ R a b ∨ R b a := by
  induction l with
  | nil => simp at ha
  | cons x l ih =>
    rcases List.mem_cons.1 ha with rfl | ha'
    · rcases List.mem_cons.1 hb with rfl | hb'
      · exact Or.inl rfl
      · exact Or.inr (Or.inl ((List.pairwise_cons.1 hp).1 b hb'))
    · rcases List.mem_cons.1 hb with rfl | hb'
      · exact Or.inr (Or.inr ((List.pairwise_cons.1 hp).1 a ha'))
      · exact ih hp.of_cons ha' hb'

theorem range_present_iff (bm : BlockMap) (q : Nat × Nat) :
    bm.range_present q = true ↔
      (q.2 ≤ q.1 ∨ ∃ r ∈ bm.intervals, r.1 ≤ q.1 ∧ q.2 ≤ r.2) := by
  rw [BlockMap.range_present]
  by_cases h : q.2 ≤ q.1
  · simp [h]
  · simp [h, List.any_eq_true]

theorem subset_cover_iff_superset (l : List (Nat × Nat)) (q : Nat × Nat)
    (hwf : IntervalsWF l) (hq : q.1 < q.2) :
    Finset.Ico q.1 q.2 ⊆ coverSet l ↔ ∃ r ∈ l, r.1 ≤ q.1 ∧ q.2 ≤ r.2 := by
  obtain ⟨hne, hp⟩ := hwf
  constructor
  · intro hsub
    have h1 : q.1 ∈ coverSet l := hsub (Finset.mem_Ico.2 ⟨le_refl _, hq⟩)
    rw [mem_coverSet] at h1
    obtain ⟨r, hr, hr1, hr2⟩ := h1
    refine ⟨r, hr, hr1, ?_⟩
    by_contra hcon
    push_neg at hcon
    have h2 : r.2 ∈ coverSet l := hsub (Finset.mem_Ico.2 ⟨by omega, by omega⟩)
    rw [mem_coverSet] at h2
    obtain ⟨s, hs, hs1, hs2⟩ := h2
    rcases pairwise_mem_trichotomy hp hr hs with heq | hlt | hgt
    · subst heq
      omega
    · have hlt' : r.2 < s.1 := hlt
      omega
    · have hgt' : s.2 < r.1 := hgt
      have := hne s hs
      omega
  · intro hsup x hx
    obtain ⟨r, hr, hr1, hr2⟩ := hsup
    rw [Finset.mem_Ico] at hx
    rw [mem_coverSet]
    exact ⟨r, hr, by omega, by omega⟩

/-- C2: on any well-formed BlockMap, `range_present q` holds iff some stored
interval is a superset of `q` (vacuously when `q` is empty);
`missing_ranges q` returns exactly the maximal uncovered sub-ranges of `q` in
ascending order (each returned range is nonempty and inside `q`, the list is
sorted with gaps, and its coverage is `Ico q.1 q.2` minus the map's
coverage — which forces each returned range to be a maximal absent run); and
`range_present q` holds iff `missing_ranges q` is empty. -/
theorem C2_range_present_missing_ranges (bm : BlockMap) (q : Nat × Nat)
    (hwf : IntervalsWF bm.intervals) :
    (bm.range_present q = true ↔
      (q.2 ≤ q.1 ∨ ∃ r ∈ bm.intervals, r.1 ≤ q.1 ∧ q.2 ≤ r.2)) ∧
    (∀ m ∈ bm.missing_ranges q, q.1 ≤ m.1 ∧ m.1 < m.2 ∧ m.2 ≤ q.2) ∧
    (bm.missing_ranges q).Pairwise (fun a b => a.2 < b.1) ∧
    coverSet (bm.missing_ranges q) = Finset.Ico q.1 q.2 \ coverSet bm.intervals ∧
    (bm.range_present q = true ↔ bm.missing_ranges q = []) := by
  by_cases hq : q.2 ≤ q.1
  · have hrp : bm.range_present q = true := by
      rw [BlockMap.range_present, if_pos hq]
    have hmr : bm.missing_ranges q = [] := by
      rw [BlockMap.missing_ranges, if_pos hq]
    refine ⟨?_, ?_, ?_, ?_, ?_⟩
    · rw [hrp]; simp [hq]
    · rw [hmr]; simp
    · rw [hmr]; exact List.Pairwise.nil
    · rw [hmr, coverSet_nil, Finset.Ico_eq_empty (by omega), Finset.empty_sdiff]
    · rw [hrp, hmr]; simp
  · push_neg at hq
    obtain ⟨hb, hpw, hcov⟩ := missFull_spec bm.intervals q.1 q.2 hq hwf.1 hwf.2
    have hmr : bm.missing_ranges q = missFull bm.intervals q.1 q.2 :=
      missing_ranges_eq bm.intervals q hq
    have hempty_iff : missFull bm.intervals q.1 q.2 = [] ↔
        Finset.Ico q.1 q.2 ⊆ coverSet bm.intervals := by
      constructor
      · intro h
        rw [h, coverSet_nil] at hcov
        exact Finset.sdiff_eq_empty_iff_subset.1 hcov.symm
      · intro h
        have hd : Finset.Ico q.1 q.2 \ coverSet bm.intervals = ∅ :=
          Finset.sdiff_eq_empty_iff_subset.2 h
        rw [hd] at hcov
        cases hm : missFull bm.intervals q.1 q.2 with
        | nil => rfl
        | cons m t =>
          exfalso
          have hmm : m ∈ missFull bm.intervals q.1 q.2 := by
            rw [hm]; exact List.mem_cons_self m t
          have hmb := hb m hmm
          have hmem : m.1 ∈ coverSet (missFull bm.intervals q.1 q.2) :=
            mem_coverSet.2 ⟨m, hmm, le_refl _, hmb.2.1⟩
          rw [hcov] at hmem
          simp at hmem
    refine ⟨range_present_iff bm q, ?_, ?_, ?_, ?_⟩
    · rw [hmr]; exact hb
    · rw [hmr]; exact hpw
    · rw [hmr]; exact hcov
    · rw [range_present_iff bm q, hmr, hempty_iff,
        subset_cover_iff_superset bm.intervals q hwf hq]
      constructor
      · rintro (h | h)
        · omega
        · exact h
      · exact fun h => Or.inr h

/-- Witness for C2 at a concrete well-formed map and query. -/
theorem C2_witness :
    IntervalsWF [(100, 200), (300, 400)] ∧
    ((BlockMap.mk [(100, 200), (300, 400)]).range_present (0, 500) = true ↔
      (BlockMap.mk [(100, 200), (300, 400)]).missing_ranges (0, 500) = []) :=
  ⟨⟨by decide, by decide⟩,
    (C2_range_present_missing_ranges ⟨[(100, 200), (300, 400)]⟩ (0, 500)
      ⟨by decide, by decide⟩).2.2.2.2⟩

theorem coalLoop_spec (g : Nat) (t : List (Nat × Nat)) :
    ∀ cur : Nat × Nat, ∀ hi : Nat, cur.1 < cur.2 → cur.2 ≤ hi →
    (∀ m ∈ t, m.1 < m.2 ∧ m.2 ≤ hi) → t.Pairwise (fun a b => a.2 < b.1) →
    (∀ m ∈ t, cur.2 < m.1) →
    (∀ c ∈ coalLoop g cur t, cur.1 ≤ c.1 ∧ c.1 < c.2 ∧ c.2 ≤ hi) ∧
    (coalLoop g cur t).Pairwise (fun a b => a.2 + g < b.1) ∧
    Finset.Ico cur.1 cur.2 ∪ coverSet t ⊆ coverSet (coalLoop g cur t) := by
  induction t with
  | nil =>
    intro cur hi hc hchi _ _ _
    refine ⟨?_, List.pairwise_singleton _ _, ?_⟩
    · intro c hc'
      rcases List.mem_singleton.1 hc' with rfl
      exact ⟨le_refl _, hc, hchi⟩
    · rw [coverSet_nil, Finset.union_empty]
      intro x hx
      rw [show coalLoop g cur [] = [cur] from rfl, coverSet_cons, coverSet_nil]
      exact Finset.mem_union.2 (Or.inl hx)
  | cons m rest ih =>
    intro cur hi hc hchi hbnd hpw hafter
    have hm1 := hafter m (List.mem_cons_self m rest)
    have hmb := hbnd m (List.mem_cons_self m rest)
    have hrestb : ∀ r ∈ rest, r.1 < r.2 ∧ r.2 ≤ hi :=
      fun r hr => hbnd r (List.mem_cons_of_mem m hr)
    have hrestafter : ∀ r ∈ rest, m.2 < r.1 := (List.pairwise_cons.1 hpw).1
    by_cases hg : m.1 - cur.2 ≤ g
    · have hstep : coalLoop g cur (m :: rest) = coalLoop g (cur.1, m.2) rest := by
        rw [coalLoop, if_pos hg]
      rw [hstep]
      obtain ⟨iha, ihp, ihc⟩ := ih (cur.1, m.2) hi (by show cur.1 < m.2; omega)
        (by show m.2 ≤ hi; omega)
        hrestb hpw.of_cons (fun r hr => hrestafter r hr)
      refine ⟨?_, ihp, ?_⟩
      · intro c hcc
        have := iha c hcc
        simp at this
        exact ⟨this.1, this.2.1, this.2.2⟩
      · intro x hx
        apply ihc
        rw [coverSet_cons] at hx
        rcases Finset.mem_union.1 hx with hx | hx
        · apply Finset.mem_union.2
          apply Or.inl
          rw [Finset.mem_Ico] at hx ⊢
          simp
          omega
        · rcases Finset.mem_union.1 hx with hx | hx
          · apply Finset.mem_union.2
            apply Or.inl
            rw [Finset.mem_Ico] at hx ⊢
            simp
            omega
          · exact Finset.mem_union.2 (Or.inr hx)
    · have hstep : coalLoop g cur (m :: rest) = cur :: coalLoop g m rest := by
        rw [coalLoop, if_neg hg]
      rw [hstep]
      obtain ⟨iha, ihp, ihc⟩ := ih m hi hmb.1 hmb.2 hrestb hpw.of_cons hrestafter
      refine ⟨?_, ?_, ?_⟩
      · intro c hcc
        rcases List.mem_cons.1 hcc with rfl | hcc
        · exact ⟨le_refl _, hc, hchi⟩
        · have := iha c hcc
          exact ⟨by omega, this.2.1, this.2.2⟩
      · rw [List.pairwise_cons]
        refine ⟨?_, ihp⟩
        intro c hcc
        have := (iha c hcc).1
        omega
      · intro x hx
        rw [coverSet_cons]
        rcases Finset.mem_union.1 hx with hx | hx
        · exact Finset.mem_union.2 (Or.inl hx)
        · rw [coverSet_cons] at hx
          apply Finset.mem_union.2
          apply Or.inr
          apply ihc
          exact hx

/-- C10: on a well-formed BlockMap, every range that `coalesced_missing q g`
returns is nonempty and lies within `q`, the returned ranges are ascending
with consecutive ranges separated by more than `g` bytes
(`a.2 + g < b.1` pairwise), and their coverage contains every byte of every
range returned by `missing_ranges q`. -/
theorem C10_coalesced_missing (bm : BlockMap) (q : Nat × Nat) (g : Nat)
    (hwf : IntervalsWF bm.intervals) :
    (∀ c ∈ bm.coalesced_missing q g, q.1 ≤ c.1 ∧ c.1 < c.2 ∧ c.2 ≤ q.2) ∧
    (bm.coalesced_missing q g).Pairwise (fun a b => a.2 + g < b.1) ∧
    coverSet (bm.missing_ranges q) ⊆ coverSet (bm.coalesced_missing q g) := by
  by_cases hq : q.2 ≤ q.1
  · have hmr : bm.missing_ranges q = [] := by
      rw [BlockMap.missing_ranges, if_pos hq]
    have hcm : bm.coalesced_missing q g = [] := by
      rw [BlockMap.coalesced_missing, hmr]
    rw [hcm, hmr]
    exact ⟨by simp, List.Pairwise.nil, by simp⟩
  · push_neg at hq
    obtain ⟨hb, hpw, _⟩ := missFull_spec bm.intervals q.1 q.2 hq hwf.1 hwf.2
    have hmr : bm.missing_ranges q = missFull bm.intervals q.1 q.2 :=
      missing_ranges_eq bm.intervals q hq
    rw [← hmr] at hb hpw
    cases hml : bm.missing_ranges q with
    | nil =>
      have hcm : bm.coalesced_missing q g = [] := by
        rw [BlockMap.coalesced_missing, hml]
      rw [hcm]
      exact ⟨by simp, List.Pairwise.nil, by simp⟩
    | cons m rest =>
      rw [hml] at hb hpw
      have hmb := hb m (List.mem_cons_self m rest)
      cases rest with
      | nil =>
        have hcm : bm.coalesced_missing q g = [m] := by
          rw [BlockMap.coalesced_missing, hml]
        rw [hcm]
        refine ⟨?_, List.pairwise_singleton _ _, by simp⟩
        intro c hcc
        rcases List.mem_singleton.1 hcc with rfl
        exact hmb
      | cons m2 rest2 =>
        have hcm : bm.coalesced_missing q g = coalLoop g m (m2 :: rest2) := by
          rw [BlockMap.coalesced_missing, hml]
        obtain ⟨ca, cp, cc⟩ := coalLoop_spec g (m2 :: rest2) m q.2 hmb.2.1 hmb.2.2
          (fun r hr => ⟨(hb r (List.mem_cons_of_mem m hr)).2.1,
                        (hb r (List.mem_cons_of_mem m hr)).2.2⟩)
          hpw.of_cons (List.pairwise_cons.1 hpw).1
        rw [hcm]
        refine ⟨?_, cp, ?_⟩
        · intro c hcc
          have := ca c hcc
          exact ⟨by omega, this.2.1, this.2.2⟩
        · rw [coverSet_cons]
          exact cc

/-- Witness for C10 at a concrete well-formed map, query and gap. -/
theorem C10_witness :
    IntervalsWF [(100, 200), (210, 300)] ∧
    ((BlockMap.mk [(100, 200), (210, 300)]).coalesced_missing (0, 500) 20).Pairwise
      (fun a b => a.2 + 20 < b.1) :=
  ⟨⟨by decide, by decide⟩,
    (C10_coalesced_missing ⟨[(100, 200), (210, 300)]⟩ (0, 500) 20
      ⟨by decide, by decide⟩).2.1⟩

-- Sanity checks mirroring unit tests in steps.rs (the mock context and a
-- glob oracle matching "*.pdf" against "report.pdf").
example :
    evaluate_steps ⟨fun p n => p == "*.pdf" && n == "report.pdf", fun _ _ => false⟩
      [⟨"glob", false, none, ⟨some "*.pdf", none, none, none, none, none, none, none, none, none⟩⟩]
      ⟨1, "report.pdf", 1000000, 0, some "application/pdf", ⟨"node-1", "/docs/report.pdf", "/docs"⟩⟩
      "file::abc" StepResult.Exclude
      ⟨fun _ _ => false, fun _ => none, fun _ _ _ => false, fun _ _ => false⟩ 0
    = StepResult.Include := rfl

example :
    evaluate_steps ⟨fun p n => p == "*.pdf" && n == "report.pdf", fun _ _ => false⟩
      [⟨"glob", true, none, ⟨some "*.pdf", none, none, none, none, none, none, none, none, none⟩⟩]
      ⟨1, "report.pdf", 1000000, 0, some "application/pdf", ⟨"node-1", "/docs/report.pdf", "/docs"⟩⟩
      "file::abc" StepResult.Include
      ⟨fun _ _ => false, fun _ => none, fun _ _ _ => false, fun _ _ => false⟩ 0
    = StepResult.Include := rfl

example :
    evaluate_steps ⟨fun p n => p == "*.pdf" && n == "report.pdf", fun _ _ => false⟩
      [⟨"glob", false, some StepResult.Continue,
         ⟨some "*.pdf", none, none, none, none, none, none, none, none, none⟩⟩,
       ⟨"node", false, none,
         ⟨none, none, none, none, some "node-1", none, none, none, none, none⟩⟩]
      ⟨1, "report.pdf", 1000000, 0, some "application/pdf", ⟨"node-1", "/docs/report.pdf", "/docs"⟩⟩
      "file::abc" StepResult.Exclude
      ⟨fun _ _ => false, fun _ => none, fun _ _ _ => false, fun _ _ => false⟩ 0
    = StepResult.Include := rfl

example :
    evaluate_steps ⟨fun _ _ => false, fun _ _ => false⟩ []
      ⟨1, "report.pdf", 1000000, 0, some "application/pdf", ⟨"node-1", "/docs/report.pdf", "/docs"⟩⟩
      "file::abc" StepResult.Exclude
      ⟨fun _ _ => false, fun _ => none, fun _ _ _ => false, fun _ _ => false⟩ 0
    = StepResult.Exclude := rfl

theorem evalLoop_eq_find (env : MatchEnv) (file : FileDocument)
    (file_id file_uuid : String) (default_result : StepResult)
    (context : StepContext) (now : Int) :
    ∀ steps : List Step,
    evalLoop env file file_id file_uuid default_result context now steps
      = ((steps.map (stepOutcome env file file_id file_uuid context now)).find?
          (fun r => !(r == StepResult.Continue))).getD default_result := by
  intro steps
  induction steps with
  | nil => rfl
  | cons step rest ih =>
    simp only [evalLoop, stepOutcome, List.map_cons, List.find?_cons]
    by_cases heff : (if step.invert then !(evaluate_op env step file file_id file_uuid now context)
        else evaluate_op env step file file_id file_uuid now context) = true
    · rw [if_pos heff, if_pos heff]
      cases hom : step.on_match.getD StepResult.Include with
      | Continue => simpa [hom] using ih
      | Include => rfl
      | Exclude => rfl
    · rw [if_neg heff, if_neg heff]
      simpa using ih

/-- C3: evaluate_steps processes steps in order — each step's op is evaluated
against the file and context, negated under `invert`, and a positive result
returns the step's `on_match` (default Include) immediately for
Include/Exclude while Continue advances; when no step yields a terminating
result (in particular for the empty list) the unchanged `default_result` is
returned (this is `claimEval`, the spec-side restatement); and a step whose
op is not one of the ten recognized names never matches. -/
theorem C3_evaluate_steps_sequencing (env : MatchEnv) (steps : List Step)
    (file : FileDocument) (file_id : String) (default_result : StepResult)
    (context : StepContext) (now : Int) :
    evaluate_steps env steps file file_id default_result context now
      = claimEval env steps file file_id default_result context now ∧
    (∀ step : Step, step.op ∉ (["glob", "regex", "age", "size", "mime", "node",
        "label", "access_age", "replicated", "annotation"] : List String) →
      ∀ uuid : String,
        evaluate_op env step file file_id uuid now context = false) := by
  constructor
  · rw [evaluate_steps, claimEval]
    exact evalLoop_eq_find env file file_id _ default_result context now steps
  · intro step h uuid
    simp only [List.mem_cons, List.not_mem_nil, or_false, not_or] at h
    obtain ⟨h1, h2, h3, h4, h5, h6, h7, h8, h9, h10⟩ := h
    rw [evaluate_op]
    split
    all_goals simp_all

/-- Witness for C3: a concrete unrecognized op never matches. -/
theorem C3_witness :
    ("zzz" : String) ∉ (["glob", "regex", "age", "size", "mime", "node",
        "label", "access_age", "replicated", "annotation"] : List String) ∧
    evaluate_op ⟨fun _ _ => true, fun _ _ => true⟩
      ⟨"zzz", false, none, ⟨none, none, none, none, none, none, none, none, none, none⟩⟩
      ⟨1, "report.pdf", 1000000, 0, some "application/pdf", ⟨"node-1", "/docs/report.pdf", "/docs"⟩⟩
      "file::abc" "abc" 0
      ⟨fun _ _ => true, fun _ => none, fun _ _ _ => true, fun _ _ => true⟩ = false :=
  ⟨by decide,
    (C3_evaluate_steps_sequencing ⟨fun _ _ => true, fun _ _ => true⟩ []
      ⟨1, "report.pdf", 1000000, 0, some "application/pdf", ⟨"node-1", "/docs/report.pdf", "/docs"⟩⟩
      "file::abc" StepResult.Exclude
      ⟨fun _ _ => true, fun _ => none, fun _ _ _ => true, fun _ _ => true⟩ 0).2
      ⟨"zzz", false, none, ⟨none, none, none, none, none, none, none, none, none, none⟩⟩
      (by decide) "abc"⟩

theorem aLookup_aInsert_self {V : Type} (m : List (String × V)) (k : String) (v : V) :
    aLookup (aInsert m k v) k = some v := by
  induction m with
  | nil => simp [aInsert, aLookup]
  | cons kv rest ih =>
    rw [aInsert]
    by_cases h : kv.1 = k
    · rw [if_pos h, aLookup, if_pos rfl]
    · rw [if_neg h, aLookup, if_neg h]
      exact ih

theorem aLookup_aInsert_ne {V : Type} (m : List (String × V)) (k k' : String) (v : V)
    (h : k' ≠ k) : aLookup (aInsert m k v) k' = aLookup m k' := by
  have h1 : ¬(k = k') := fun hh => h hh.symm
  induction m with
  | nil =>
    rw [aInsert, aLookup, aLookup, if_neg h1]
    rfl
  | cons kv rest ih =>
    rw [aInsert]
    by_cases hk : kv.1 = k
    · have h2 : ¬(kv.1 = k') := by rw [hk]; exact h1
      rw [if_pos hk, aLookup, aLookup, if_neg h1, if_neg h2]
    · rw [if_neg hk, aLookup, aLookup]
      by_cases hk' : kv.1 = k'
      · rw [if_pos hk', if_pos hk']
      · rw [if_neg hk', if_neg hk']
        exact ih

theorem aLookup_mem {V : Type} (m : List (String × V)) (k : String) (v : V)
    (h : aLookup m k = some v) : (k, v) ∈ m := by
  induction m with
  | nil => simp [aLookup] at h
  | cons kv rest ih =>
    rw [aLookup] at h
    by_cases hk : kv.1 = k
    · rw [if_pos hk] at h
      have hv : kv.2 = v := Option.some.inj h
      have hkv : kv = (k, v) := by
        cases kv
        simp only at hk hv
        rw [hk, hv]
      rw [← hkv]
      exact List.mem_cons_self kv rest
    · rw [if_neg hk] at h
      exact List.mem_cons_of_mem kv (ih h)

theorem aLookup_none_iff {V : Type} (m : List (String × V)) (k : String) :
    aLookup m k = none ↔ k ∉ m.map (fun kv => kv.1) := by
  induction m with
  | nil => simp [aLookup]
  | cons kv rest ih =>
    rw [aLookup]
    by_cases hk : kv.1 = k
    · simp [if_pos hk, hk]
    · rw [if_neg hk, ih]
      simp only [List.map_cons, List.mem_cons]
      constructor
      · intro hh hor
        rcases hor with h' | h'
        · exact hk h'.symm
        · exact hh h'
      · intro hh h'
        exact hh (Or.inr h')

theorem aLookup_isSome_aInsert {V : Type} (m : List (String × V)) (k k' : String) (v : V)
    (h : (aLookup m k').isSome = true) : (aLookup (aInsert m k v) k').isSome = true := by
  by_cases hk : k' = k
  · rw [hk, aLookup_aInsert_self]; rfl
  · rw [aLookup_aInsert_ne m k k' v hk]; exact h

theorem mem_aInsert_nodup {V : Type} (m : List (String × V)) (k : String) (v : V)
    (hnd : (m.map (fun kv => kv.1)).Nodup) :
    ∀ kv ∈ aInsert m k v, kv = (k, v) ∨ (kv ∈ m ∧ kv.1 ≠ k) := by
  induction m with
  | nil =>
    intro kv hkv
    rw [aInsert] at hkv
    exact Or.inl (List.mem_singleton.1 hkv)
  | cons hd rest ih =>
    intro kv hkv
    rw [aInsert] at hkv
    rw [List.map_cons, List.nodup_cons] at hnd
    by_cases hk : hd.1 = k
    · rw [if_pos hk] at hkv
      rcases List.mem_cons.1 hkv with h | h
      · exact Or.inl h
      · right
        refine ⟨List.mem_cons_of_mem hd h, ?_⟩
        intro hkk
        apply hnd.1
        rw [hk]
        rw [← hkk]
        exact List.mem_map_of_mem _ h
    · rw [if_neg hk] at hkv
      rcases List.mem_cons.1 hkv with h | h
      · right
        rw [h]
        exact ⟨List.mem_cons_self hd rest, hk⟩
      · rcases ih hnd.2 kv h with h' | h'
        · exact Or.inl h'
        · exact Or.inr ⟨List.mem_cons_of_mem hd h'.1, h'.2⟩

theorem aInsert_keys_some {V : Type} (m : List (String × V)) (k : String) (v w : V)
    (h : aLookup m k = some w) :
    (aInsert m k v).map (fun kv => kv.1) = m.map (fun kv => kv.1) := by
  induction m with
  | nil => simp [aLookup] at h
  | cons hd rest ih =>
    rw [aLookup] at h
    rw [aInsert]
    by_cases hk : hd.1 = k
    · rw [if_pos hk]
      simp [hk]
    · rw [if_neg hk] at h ⊢
      simp [ih h]

theorem aInsert_keys_none {V : Type} (m : List (String × V)) (k : String) (v : V)
    (h : aLookup m k = none) :
    (aInsert m k v).map (fun kv => kv.1) = m.map (fun kv => kv.1) ++ [k] := by
  induction m with
  | nil => simp [aInsert]
  | cons hd rest ih =>
    rw [aLookup] at h
    rw [aInsert]
    by_cases hk : hd.1 = k
    · rw [if_pos hk] at h
      simp at h
    · rw [if_neg hk] at h ⊢
      simp [ih h]

theorem aInsert_nodup {V : Type} (m : List (String × V)) (k : String) (v : V)
    (hnd : (m.map (fun kv => kv.1)).Nodup) :
    ((aInsert m k v).map (fun kv => kv.1)).Nodup := by
  cases h : aLookup m k with
  | some w => rw [aInsert_keys_some m k v w h]; exact hnd
  | none =>
    rw [aInsert_keys_none m k v h]
    rw [List.nodup_append]
    exact ⟨hnd, List.nodup_singleton k,
      fun a ha hb => ((aLookup_none_iff m k).1 h) (by rwa [List.mem_singleton.1 hb] at ha)⟩

theorem aLookup_eq_of_mem_nodup {V : Type} (m : List (String × V)) (k : String) (v : V)
    (hnd : (m.map (fun kv => kv.1)).Nodup) (h : (k, v) ∈ m) :
    aLookup m k = some v := by
  induction m with
  | nil => simp at h
  | cons hd rest ih =>
    rw [List.map_cons, List.nodup_cons] at hnd
    rw [aLookup]
    rcases List.mem_cons.1 h with h' | h'
    · subst h'
      simp
    · by_cases hk : hd.1 = k
      · exfalso
        apply hnd.1
        rw [hk]
        exact List.mem_map_of_mem _ h'
      · rw [if_neg hk]
        exact ih hnd.2 h'

theorem mem_aInsert {V : Type} (m : List (String × V)) (k : String) (v : V) :
    ∀ kv ∈ aInsert m k v, kv = (k, v) ∨ kv ∈ m := by
  induction m with
  | nil =>
    intro kv hkv
    rw [aInsert] at hkv
    exact Or.inl (List.mem_singleton.1 hkv)
  | cons hd rest ih =>
    intro kv hkv
    rw [aInsert] at hkv
    by_cases hk : hd.1 = k
    · rw [if_pos hk] at hkv
      rcases List.mem_cons.1 hkv with h | h
      · exact Or.inl h
      · exact Or.inr (List.mem_cons_of_mem hd h)
    · rw [if_neg hk] at hkv
      rcases List.mem_cons.1 hkv with h | h
      · exact Or.inr (h ▸ List.mem_cons_self hd rest)
      · rcases ih kv h with h' | h'
        · exact Or.inl h'
        · exact Or.inr (List.mem_cons_of_mem hd h')

theorem lww_step (c : ConflictPolicy × String × ReaddirEntry)
    (hc : c.1 = ConflictPolicy.LastWriteWins) (hcn : c.2.2.name = c.2.1)
    (done : List (ConflictPolicy × String × ReaddirEntry))
    (st : List (String × ReaddirEntry) × List (String × ConflictPolicy))
    (h : LwwInv done st) : LwwInv (done ++ [c]) (applyContribution st c) := by
  obtain ⟨hmax, hcomp, hpol, hnd⟩ := h
  obtain ⟨pol, n, e⟩ := c
  simp only at hc hcn
  subst hc
  rw [applyContribution]
  simp only
  cases hl : aLookup st.1 n with
  | none =>
    refine ⟨?_, ?_, ?_, ?_⟩
    · intro kv hkv
      rcases mem_aInsert_nodup st.1 n e hnd kv hkv with rfl | ⟨hkv', hne⟩
      · refine ⟨⟨(ConflictPolicy.LastWriteWins, n, e), by simp⟩, ?_, hcn⟩
        intro c' hc'
        rcases List.mem_append.1 hc' with hdone | hcc
        · intro hname
          exfalso
          have := hcomp c' hdone
          rw [hname] at this
          simp only at this
          rw [hl] at this
          simp at this
        · intro _
          rcases List.mem_singleton.1 hcc with rfl
          exact le_refl _
      · obtain ⟨hex, hub, hname⟩ := hmax kv hkv'
        refine ⟨?_, ?_, hname⟩
        · obtain ⟨c', hc', hc'2⟩ := hex
          exact ⟨c', List.mem_append.2 (Or.inl hc'), hc'2⟩
        · intro c' hc'
          rcases List.mem_append.1 hc' with hdone | hcc
          · exact hub c' hdone
          · rcases List.mem_singleton.1 hcc with rfl
            intro hname'
            exact absurd hname'.symm hne
    · intro c' hc'
      rcases List.mem_append.1 hc' with hdone | hcc
      · exact aLookup_isSome_aInsert st.1 n c'.2.1 e (hcomp c' hdone)
      · rcases List.mem_singleton.1 hcc with rfl
        show (aLookup (aInsert st.1 n e) n).isSome = true
        rw [aLookup_aInsert_self]
        rfl
    · intro kp hkp
      rcases mem_aInsert st.2 n ConflictPolicy.LastWriteWins kp hkp with rfl | hkp'
      · rfl
      · exact hpol kp hkp'
    · exact aInsert_nodup st.1 n e hnd
  | some existing =>
    have hpolval : (aLookup st.2 n).getD ConflictPolicy.LastWriteWins
        = ConflictPolicy.LastWriteWins := by
      cases hsp : aLookup st.2 n with
      | none => rfl
      | some p =>
        have := hpol (n, p) (aLookup_mem st.2 n p hsp)
        simp only at this
        rw [this]
        rfl
    simp only [hpolval]
    have hmem_ex : (n, existing) ∈ st.1 := aLookup_mem st.1 n existing hl
    obtain ⟨hex_ex, hub_ex, hname_ex⟩ := hmax (n, existing) hmem_ex
    by_cases hmt : existing.mtime < e.mtime
    · rw [if_pos hmt]
      refine ⟨?_, ?_, ?_, ?_⟩
      · intro kv hkv
        rcases mem_aInsert_nodup st.1 n e hnd kv hkv with rfl | ⟨hkv', hne⟩
        · refine ⟨⟨(ConflictPolicy.LastWriteWins, n, e), by simp⟩, ?_, hcn⟩
          intro c' hc'
          rcases List.mem_append.1 hc' with hdone | hcc
          · intro hname
            have h2 : c'.2.2.mtime ≤ existing.mtime := hub_ex c' hdone hname
            show c'.2.2.mtime ≤ e.mtime
            omega
          · intro _
            rcases List.mem_singleton.1 hcc with rfl
            exact le_refl _
        · obtain ⟨hex, hub, hname⟩ := hmax kv hkv'
          refine ⟨?_, ?_, hname⟩
          · obtain ⟨c', hc', hc'2⟩ := hex
            exact ⟨c', List.mem_append.2 (Or.inl hc'), hc'2⟩
          · intro c' hc'
            rcases List.mem_append.1 hc' with hdone | hcc
            · exact hub c' hdone
            · rcases List.mem_singleton.1 hcc with rfl
              intro hname'
              exact absurd hname'.symm hne
      · intro c' hc'
        rcases List.mem_append.1 hc' with hdone | hcc
        · exact aLookup_isSome_aInsert st.1 n c'.2.1 e (hcomp c' hdone)
        · rcases List.mem_singleton.1 hcc with rfl
          show (aLookup (aInsert st.1 n e) n).isSome = true
          rw [aLookup_aInsert_self]
          rfl
      · intro kp hkp
        rcases mem_aInsert st.2 n ConflictPolicy.LastWriteWins kp hkp with rfl | hkp'
        · rfl
        · exact hpol kp hkp'
      · exact aInsert_nodup st.1 n e hnd
    · rw [if_neg hmt]
      refine ⟨?_, ?_, hpol, hnd⟩
      · intro kv hkv
        obtain ⟨hex, hub, hname⟩ := hmax kv hkv
        refine ⟨?_, ?_, hname⟩
        · obtain ⟨c', hc', hc'2⟩ := hex
          exact ⟨c', List.mem_append.2 (Or.inl hc'), hc'2⟩
        · intro c' hc'
          rcases List.mem_append.1 hc' with hdone | hcc
          · exact hub c' hdone
          · rcases List.mem_singleton.1 hcc with rfl
            intro hname'
            simp only at hname'
            have hkv_eq : kv = (n, existing) := by
              have hlk : aLookup st.1 kv.1 = some kv.2 :=
                aLookup_eq_of_mem_nodup st.1 kv.1 kv.2 hnd (by cases kv; exact hkv)
              rw [← hname'] at hlk
              rw [hl] at hlk
              have h2 : existing = kv.2 := Option.some.inj hlk
              cases kv
              simp only at hname' h2
              rw [← hname', ← h2]
            rw [hkv_eq]
            show e.mtime ≤ existing.mtime
            omega
      · intro c' hc'
        rcases List.mem_append.1 hc' with hdone | hcc
        · exact hcomp c' hdone
        · rcases List.mem_singleton.1 hcc with rfl
          show (aLookup st.1 n).isSome = true
          rw [hl]
          rfl

theorem lww_fold (cs : List (ConflictPolicy × String × ReaddirEntry))
    (hcs : ∀ c ∈ cs, c.1 = ConflictPolicy.LastWriteWins ∧ c.2.2.name = c.2.1) :
    ∀ done st, LwwInv done st → LwwInv (done ++ cs) (cs.foldl applyContribution st) := by
  induction cs with
  | nil => intro done st h; simpa using h
  | cons c cs ih =>
    intro done st h
    have hc := hcs c (List.mem_cons_self c cs)
    have hstep := lww_step c hc.1 hc.2 done st h
    have hrec := ih (fun c' hc' => hcs c' (List.mem_cons_of_mem c hc')) (done ++ [c])
      (applyContribution st c) hstep
    rw [List.foldl_cons]
    rw [List.append_assoc, List.singleton_append] at hrec
    exact hrec

theorem contribs_shape (env : ReaddirEnv) (inherited_steps : List Step)
    (child_dirs : List String) (ctx : StepContext) (mount : MountEntry) :
    ∀ c ∈ mountContribs env inherited_steps child_dirs ctx mount,
      c.1 = mount.conflict_policy ∧ c.2.2.name = c.2.1 := by
  intro c hc
  rw [mountContribs] at hc
  obtain ⟨fd, _, hsome⟩ := List.mem_filterMap.1 hc
  simp only at hsome
  split at hsome
  · exact absurd hsome (by simp)
  · split at hsome
    · exact absurd hsome (by simp)
    · have he := Option.some.inj hsome
      rw [← he]
      exact ⟨rfl, rfl⟩

theorem contributionsOf_shape (env : ReaddirEnv) (mounts : List MountEntry)
    (inherited_steps : List Step) (child_dirs : List String) (ctx : StepContext)
    (hlww : ∀ mount ∈ mounts, mount.conflict_policy = ConflictPolicy.LastWriteWins) :
    ∀ c ∈ contributionsOf env mounts inherited_steps child_dirs ctx,
      c.1 = ConflictPolicy.LastWriteWins ∧ c.2.2.name = c.2.1 := by
  intro c hc
  rw [contributionsOf] at hc
  obtain ⟨l, hl, hcl⟩ := List.mem_flatten.1 hc
  obtain ⟨mount, hmount, hml⟩ := List.mem_map.1 hl
  rw [← hml] at hcl
  have := contribs_shape env inherited_steps child_dirs ctx mount c hcl
  exact ⟨this.1.trans (hlww mount hmount), this.2⟩

/-- C8: when the governing conflict policy of every mount is
last_write_wins, every entry returned by evaluate_readdir is one of the
contributions that mapped to its name, and its mtime is the maximum mtime
among all contributions colliding on that name. -/
theorem C8_last_write_wins_keeps_max_mtime (env : ReaddirEnv) (mounts : List MountEntry)
    (inherited_steps : List Step) (child_dirs : List String) (ctx : StepContext)
    (hlww : ∀ mount ∈ mounts, mount.conflict_policy = ConflictPolicy.LastWriteWins) :
    ∀ e ∈ evaluate_readdir env mounts inherited_steps child_dirs ctx,
      (∃ c ∈ contributionsOf env mounts inherited_steps child_dirs ctx,
          c.2.1 = e.name ∧ c.2.2 = e) ∧
      (∀ c ∈ contributionsOf env mounts inherited_steps child_dirs ctx,
          c.2.1 = e.name → c.2.2.mtime ≤ e.mtime) := by
  intro e he
  rw [evaluate_readdir, List.mem_mergeSort] at he
  obtain ⟨kv, hkv, hkve⟩ := List.mem_map.1 he
  have hshape := contributionsOf_shape env mounts inherited_steps child_dirs ctx hlww
  have hempty : LwwInv [] ([], []) :=
    ⟨fun kv h => absurd h (List.not_mem_nil kv),
     fun c h => absurd h (List.not_mem_nil c),
     fun kp h => absurd h (List.not_mem_nil kp), List.nodup_nil⟩
  have hinv := lww_fold (contributionsOf env mounts inherited_steps child_dirs ctx)
    hshape [] ([], []) hempty
  rw [List.nil_append] at hinv
  obtain ⟨hex, hub, hname⟩ := hinv.1 kv hkv
  have hen : e.name = kv.1 := by rw [← hkve]; exact hname
  constructor
  · obtain ⟨c, hc, hc1, hc2⟩ := hex
    exact ⟨c, hc, by rw [hen]; exact hc1, by rw [← hkve]; exact hc2⟩
  · intro c hc hcn
    rw [← hkve]
    apply hub c hc
    rw [← hen]
    exact hcn

/-- Witness for C8 at a concrete two-way collision: the kept entry has the
maximum mtime. -/
theorem C8_witness :
    (∀ mount ∈ [mountC8], mount.conflict_policy = ConflictPolicy.LastWriteWins) ∧
    (∀ c ∈ contributionsOf envC8 [mountC8] [] [] emptyCtx,
        c.2.1 = entryC8.name → c.2.2.mtime ≤ entryC8.mtime) :=
  ⟨by decide,
    (C8_last_write_wins_keeps_max_mtime envC8 [mountC8] [] [] emptyCtx (by decide)
      entryC8 (List.mem_mergeSort.2 (by decide))).2⟩

/-- Counterexample to C9 as stated: three contributions from the same node
collide on `a.txt`, but the second and third newcomers both get the suffixed
name `a (n1).txt`, so the third overwrites the second and only two distinct
entries survive instead of three. -/
theorem C9_counterexample :
    (contributionsOf envC9 [mountC9] [] [] emptyCtx).length = 3 ∧
    (evaluate_readdir envC9 [mountC9] [] [] emptyCtx).length = 2 := by
  constructor
  · decide
  · rw [evaluate_readdir, List.length_mergeSort, List.length_map]
    decide

theorem aLookup_append_of_isSome {V : Type} (m m2 : List (String × V)) (k : String)
    (h : (aLookup m k).isSome = true) : aLookup (m ++ m2) k = aLookup m k := by
  induction m with
  | nil => simp [aLookup] at h
  | cons hd rest ih =>
    rw [List.cons_append, aLookup, aLookup]
    by_cases hk : hd.1 = k
    · rw [if_pos hk, if_pos hk]
    · rw [if_neg hk, if_neg hk]
      rw [aLookup, if_neg hk] at h
      exact ih h

theorem aInsert_eq_append {V : Type} (m : List (String × V)) (k : String) (v : V)
    (h : aLookup m k = none) : aInsert m k v = m ++ [(k, v)] := by
  induction m with
  | nil => rfl
  | cons hd rest ih =>
    rw [aLookup] at h
    rw [aInsert]
    by_cases hk : hd.1 = k
    · rw [if_pos hk] at h
      simp at h
    · rw [if_neg hk] at h ⊢
      rw [List.cons_append, ih h]

theorem suffix_fold (n : String) :
    ∀ (rest : List ReaddirEntry) (m : List (String × ReaddirEntry))
      (cp : List (String × ConflictPolicy)),
    (aLookup m n).isSome = true →
    (aLookup cp n).getD ConflictPolicy.SuffixNodeId = ConflictPolicy.SuffixNodeId →
    (∀ e ∈ rest, suffixName n e.source_node_id ∉ m.map (fun kv => kv.1)) →
    (∀ e ∈ rest, suffixName n e.source_node_id ≠ n) →
    (rest.map (fun e => suffixName n e.source_node_id)).Nodup →
    (rest.map (fun e => (ConflictPolicy.SuffixNodeId, n, e))).foldl applyContribution (m, cp)
      = (m ++ rest.map (fun e => (suffixName n e.source_node_id,
          renameEntry (suffixName n e.source_node_id) e)), cp) := by
  intro rest
  induction rest with
  | nil => intro m cp _ _ _ _ _; simp
  | cons e rest' ih =>
    intro m cp hsome hcp hnotin hne hnd
    rw [List.map_cons, List.foldl_cons]
    obtain ⟨existing, hex⟩ := Option.isSome_iff_exists.1 hsome
    have hstep : applyContribution (m, cp) (ConflictPolicy.SuffixNodeId, n, e)
        = (m ++ [(suffixName n e.source_node_id,
            renameEntry (suffixName n e.source_node_id) e)], cp) := by
      rw [applyContribution]
      simp only
      rw [hex]
      simp only [hcp]
      rw [aInsert_eq_append]
      exact (aLookup_none_iff m (suffixName n e.source_node_id)).2
        (hnotin e (List.mem_cons_self e rest'))
    rw [hstep]
    rw [List.map_cons, List.nodup_cons] at hnd
    have hrec := ih (m ++ [(suffixName n e.source_node_id,
        renameEntry (suffixName n e.source_node_id) e)]) cp
      (by rw [aLookup_append_of_isSome m _ n hsome]; exact hsome)
      hcp
      (fun e' he' => by
        simp only [List.map_append, List.map_cons, List.map_nil, List.mem_append,
          List.mem_singleton]
        intro hor
        rcases hor with h' | h'
        · exact hnotin e' (List.mem_cons_of_mem e he') h'
        · exact hnd.1 (h' ▸ List.mem_map_of_mem _ he'))
      (fun e' he' => hne e' (List.mem_cons_of_mem e he'))
      hnd.2
    rw [hrec, List.append_assoc, List.singleton_append, List.map_cons]

/-- C9 (amended): with suffix_node_id, the first contribution for a name
keeps the original name and every colliding newcomer is stored, renamed,
under its suffixed name `{stem} ({source_node_id}).{ext}` (or
`{stem} ({node_id})` without extension); every colliding contribution
produces one distinct entry provided the newcomers' suffixed names are
pairwise distinct and differ from the colliding name — the concrete
counterexample shows this proviso is necessary when two newcomers share a
source node.  `resolveConflicts` is the conflict-resolution fold of
evaluate_readdir over its contribution stream. -/
theorem C9_suffix_node_id_amended (n : String) (e1 : ReaddirEntry)
    (rest : List ReaddirEntry)
    (hdist : (rest.map (fun e => suffixName n e.source_node_id)).Nodup)
    (hne : ∀ e ∈ rest, suffixName n e.source_node_id ≠ n) :
    (resolveConflicts ((ConflictPolicy.SuffixNodeId, n, e1) ::
        rest.map (fun e => (ConflictPolicy.SuffixNodeId, n, e)))).1
      = (n, e1) :: rest.map (fun e =>
          (suffixName n e.source_node_id, renameEntry (suffixName n e.source_node_id) e)) ∧
    (resolveConflicts ((ConflictPolicy.SuffixNodeId, n, e1) ::
        rest.map (fun e => (ConflictPolicy.SuffixNodeId, n, e)))).1.length
      = 1 + rest.length := by
  have hfirst : applyContribution ([], []) (ConflictPolicy.SuffixNodeId, n, e1)
      = ([(n, e1)], [(n, ConflictPolicy.SuffixNodeId)]) := rfl
  have hmain := suffix_fold n rest [(n, e1)] [(n, ConflictPolicy.SuffixNodeId)]
    (by rw [aLookup, if_pos rfl]; rfl)
    (by rw [aLookup, if_pos rfl]; rfl)
    (fun e he => by
      simp only [List.map_cons, List.map_nil, List.mem_singleton]
      exact hne e he)
    hne hdist
  have hres : resolveConflicts ((ConflictPolicy.SuffixNodeId, n, e1) ::
      rest.map (fun e => (ConflictPolicy.SuffixNodeId, n, e)))
      = ([(n, e1)] ++ rest.map (fun e => (suffixName n e.source_node_id,
          renameEntry (suffixName n e.source_node_id) e)),
         [(n, ConflictPolicy.SuffixNodeId)]) := by
    rw [resolveConflicts, List.foldl_cons, hfirst, hmain]
  rw [hres]
  constructor
  · rw [List.singleton_append]
  · simp
    omega

/-- Witness for C9's amended claim at a concrete collision with two distinct
source nodes. -/
theorem C9_amended_witness :
    (([⟨"a.txt", "file::2", 2, 100, 20, none, "n2", "/y/a.txt", "m1"⟩] :
        List ReaddirEntry).map
          (fun e => suffixName "a.txt" e.source_node_id)).Nodup ∧
    (resolveConflicts ((ConflictPolicy.SuffixNodeId, "a.txt",
        (⟨"a.txt", "file::1", 1, 100, 10, none, "n1", "/x/a.txt", "m1"⟩ : ReaddirEntry)) ::
        ([⟨"a.txt", "file::2", 2, 100, 20, none, "n2", "/y/a.txt", "m1"⟩] :
          List ReaddirEntry).map
          (fun e => (ConflictPolicy.SuffixNodeId, "a.txt", e)))).1.length = 1 + 1 :=
  ⟨by decide,
    (C9_suffix_node_id_amended "a.txt"
      ⟨"a.txt", "file::1", 1, 100, 10, none, "n1", "/x/a.txt", "m1"⟩
      [⟨"a.txt", "file::2", 2, 100, 20, none, "n2", "/y/a.txt", "m1"⟩]
      (by decide) (by decide)).2⟩

/-- Counterexample to C7 as stated: with the Tier-1 containment check
failing (path exists, canonical form outside every watch root), resolve_file
does not reject with NotAccessible — it falls through to Tier 4 and returns
NeedsFetch from the owning node's transfer endpoint. -/
theorem C7_counterexample :
    fileC7.source_node_id = "n1" ∧
    envC7.pathExists fileC7.source_export_path = true ∧
    envC7.canonicalize fileC7.source_export_path = some "/outside/f" ∧
    is_under_watch_path envC7 "/outside/f" ["/w"] = false ∧
    resolve_file envC7 fileC7 "n1" ["/w"] []
      = AccessResult.NeedsFetch "file::u" "n1" "http://e" 100 "mt" ∧
    (resolve_file envC7 fileC7 "n1" ["/w"] []).isNotAccessible = false := by
  refine ⟨rfl, by decide, by decide, by decide, by decide, by decide⟩

/-- C7 (amended): when the file belongs to the local node and its source
path exists but canonicalizes outside every watch root, Tier 1 denies the
local path (never returns it) and resolution continues with the remaining
tiers — the cache check, network mounts, remote fetch and replica failover
of `resolveAfterLocal`; NotAccessible is returned only if those later tiers
produce it. -/
theorem C7_amended_containment (env : FsEnv) (file : FileInode)
    (local_node_id : String) (watch_paths : List String)
    (network_mounts : List NetworkMountInfo) (c : String)
    (hnode : file.source_node_id = local_node_id)
    (hexists : env.pathExists file.source_export_path = true)
    (hcanon : env.canonicalize file.source_export_path = some c)
    (hout : is_under_watch_path env c watch_paths = false) :
    resolve_file env file local_node_id watch_paths network_mounts
      = resolveAfterLocal env file network_mounts := by
  rw [resolve_file, if_pos ⟨hnode, hexists⟩, hcanon]
  simp only [hout]
  rw [if_neg]
  simp

/-- Witness for C7's amended claim at the concrete escaping path. -/
theorem C7_amended_witness :
    envC7.pathExists fileC7.source_export_path = true ∧
    resolve_file envC7 fileC7 "n1" ["/w"] []
      = resolveAfterLocal envC7 fileC7 [] :=
  ⟨by decide,
    C7_amended_containment envC7 fileC7 "n1" ["/w"] [] "/outside/f" rfl (by decide)
      (by decide) (by decide)⟩

-- Schedule-window sanity checks (02:00-06:00 at 14:00 and 03:00; a window
-- wrapping midnight at 00:30 and 12:00).
example : in_schedule_window (some (120, 360)) 840 = false := by decide

example : in_schedule_window (some (120, 360)) 180 = true := by decide

example : in_schedule_window (some (1320, 360)) 30 = true := by decide

example : in_schedule_window (some (1320, 360)) 720 = false := by decide

example : in_schedule_window none 840 = true := rfl

-- Out-of-window event: pair queued, annotation pending, nothing staged.
example :
    process_file_event envAg "n1" "file::a" docA [ruleR]
      [("T", targetT 30 (some (120, 360)))] ⟨[], [], [], [], []⟩
    = ⟨[], [], [⟨"file::a", "T", 1000⟩], [("file::a", [("T", "pending")])], []⟩ := by
  decide

-- Queue drain inside the window: row upserted, queue emptied, annotation
-- current, one upload performed.
example :
    process_upload_queue envAg3am [("T", targetT 30 (some (120, 360)))]
      ⟨[], [], [⟨"file::a", "T", 1000⟩], [("file::a", [("T", "pending")])], []⟩
    = (⟨[⟨"file::a", "T", 1000, "2024", 5, "key-file::a-T", some "ck"⟩], [], [],
        [("file::a", [("T", "current")])], []⟩,
       [AgentEffect.upload "file::a" "T"]) := by
  decide

-- Deletion with 30-day retention: row moved to deletion_log, not purged.
example :
    process_deletion_event envAg "file::a" [("T", targetT 30 none)]
      ⟨[⟨"file::a", "T", 900, "2024", 5, "k1", none⟩], [], [], [], []⟩
    = (⟨[], [⟨"file::a", "T", 1000, some (1000 + 30 * 86400), "k1", false⟩], [], [], []⟩,
       []) := by
  decide

-- Deletion with zero retention: null retain_until, immediate remote delete,
-- purged.
example :
    process_deletion_event envAg "file::a" [("T", targetT 0 none)]
      ⟨[⟨"file::a", "T", 900, "2024", 5, "k1", none⟩], [], [], [], []⟩
    = (⟨[], [⟨"file::a", "T", 1000, none, "k1", true⟩], [], [], []⟩,
       [AgentEffect.remoteDelete "T" "k1"]) := by
  decide

-- Sweep: a row whose retain_until has passed is purged; a still-retained
-- row is untouched.
example :
    sweep_deletion_log envAg [("T", targetT 30 none)]
      ⟨[], [⟨"file::a", "T", 900, some 500, "k1", false⟩,
            ⟨"file::b", "T", 900, some 2000, "k2", false⟩], [], [], []⟩
    = (⟨[], [⟨"file::a", "T", 900, some 500, "k1", true⟩,
             ⟨"file::b", "T", 900, some 2000, "k2", false⟩], [], [], []⟩,
       [AgentEffect.remoteDelete "T" "k1"]) := by
  decide

-- Idempotence: with a matching replication_state row present, reprocessing
-- the same event changes nothing.
example :
    process_file_event envAg3am "n1" "file::a" docA [ruleR]
      [("T", targetT 30 (some (120, 360)))]
      ⟨[⟨"file::a", "T", 1000, "2024", 5, "key-file::a-T", some "ck"⟩], [], [],
        [("file::a", [("T", "current")])], []⟩
    = ⟨[⟨"file::a", "T", 1000, "2024", 5, "key-file::a-T", some "ck"⟩], [], [],
        [("file::a", [("T", "current")])], []⟩ := by
  decide

lemma processDeletionStep_none (env : AgentEnv) (file_id : String)
    (targets : List (String × ReplicationTarget))
    (acc : ReplState × List AgentEffect) (tk : String × String)
    (h : aLookup targets tk.1 = none) :
    processDeletionStep env file_id targets acc tk = acc := by
  unfold processDeletionStep
  rw [h]

lemma processDeletionStep_some (env : AgentEnv) (file_id : String)
    (targets : List (String × ReplicationTarget))
    (acc : ReplState × List AgentEffect) (tn k : String) (t : ReplicationTarget)
    (ht : aLookup targets tn = some t) :
    processDeletionStep env file_id targets acc (tn, k) =
      (⟨repDelete acc.1.replication_state file_id tn,
        (if t.retention_days = 0 ∧ env.buildBackendOk tn = true then
          delSetPurged (delUpsert acc.1.deletion_log
            ⟨file_id, tn, env.now,
             (if t.retention_days > 0
              then some (env.now + t.retention_days * 86400) else none), k, false⟩)
            file_id tn
         else delUpsert acc.1.deletion_log
            ⟨file_id, tn, env.now,
             (if t.retention_days > 0
              then some (env.now + t.retention_days * 86400) else none), k, false⟩),
        acc.1.upload_queue,
        annotRemove acc.1.pending_annotations file_id tn,
        acc.1.pending_uploads⟩,
       if t.retention_days = 0 ∧ env.buildBackendOk tn = true
       then acc.2 ++ [AgentEffect.remoteDelete tn k] else acc.2) := by
  unfold processDeletionStep
  rw [ht]
  by_cases h0 : t.retention_days = 0
  · by_cases hb : env.buildBackendOk tn = true
    · simp [h0, hb]
    · simp [h0, hb]
  · simp [h0]

lemma pds_establish (env : AgentEnv) (file_id : String)
    (targets : List (String × ReplicationTarget))
    (acc : ReplState × List AgentEffect) (tn k : String) (t : ReplicationTarget)
    (ht : aLookup targets tn = some t) :
    DeletionOutcome env file_id tn k t
      (processDeletionStep env file_id targets acc (tn, k)) := by
  rw [processDeletionStep_some env file_id targets acc tn k t ht]
  unfold DeletionOutcome
  refine ⟨?_, ?_, ?_⟩
  · intro r' hr'
    simp only [repDelete, List.mem_filter, Bool.not_eq_true', Bool.and_eq_false_iff,
      beq_eq_false_iff_ne, ne_eq] at hr'
    rcases hr'.2 with h | h
    · exact fun hc => h hc.1
    · exact fun hc => h hc.2
  · by_cases hc : t.retention_days = 0 ∧ env.buildBackendOk tn = true
    · refine ⟨⟨file_id, tn, env.now,
        (if t.retention_days > 0
         then some (env.now + t.retention_days * 86400) else none), k, true⟩,
        ?_, rfl, rfl, rfl, rfl, ?_⟩
      · simp only [if_pos hc, delUpsert, delSetPurged, List.map_append, List.mem_append]
        right
        simp
      · simp [hc.1, hc.2]
    · refine ⟨⟨file_id, tn, env.now,
        (if t.retention_days > 0
         then some (env.now + t.retention_days * 86400) else none), k, false⟩,
        ?_, rfl, rfl, rfl, rfl, ?_⟩
      · simp [if_neg hc, delUpsert]
      · by_cases h0 : t.retention_days = 0
        · have hb : env.buildBackendOk tn = false := by
            rcases Bool.eq_false_or_eq_true (env.buildBackendOk tn) with h | h
            · exact absurd ⟨h0, h⟩ hc
            · exact h
          simp [h0, hb]
        · simp [h0]
  · intro h0 hb
    simp [h0, hb]

lemma pds_preserve (env : AgentEnv) (file_id : String)
    (targets : List (String × ReplicationTarget))
    (acc : ReplState × List AgentEffect) (tk : String × String)
    (tn k : String) (t : ReplicationTarget) (hne : tk.1 ≠ tn)
    (h : DeletionOutcome env file_id tn k t acc) :
    DeletionOutcome env file_id tn k t
      (processDeletionStep env file_id targets acc tk) := by
  obtain ⟨h1, ⟨d, hd, hdf, hdt, hdk, hdr, hdp⟩, h3⟩ := h
  cases hl : aLookup targets tk.1 with
  | none =>
    rw [processDeletionStep_none env file_id targets acc tk hl]
    exact ⟨h1, ⟨d, hd, hdf, hdt, hdk, hdr, hdp⟩, h3⟩
  | some t' =>
    have htk : tk = (tk.1, tk.2) := rfl
    rw [htk, processDeletionStep_some env file_id targets acc tk.1 tk.2 t' hl]
    have hdkeep : ∀ dl' : List DelRow, d ∈ dl' →
        d ∈ delUpsert dl'
          ⟨file_id, tk.1, env.now,
           (if t'.retention_days > 0
            then some (env.now + t'.retention_days * 86400) else none), tk.2, false⟩ := by
      intro dl' hmem
      unfold delUpsert
      refine List.mem_append_left _ (List.mem_filter.2 ⟨hmem, ?_⟩)
      simp only [Bool.not_eq_true', Bool.and_eq_false_iff, beq_eq_false_iff_ne, ne_eq]
      right
      rw [hdt]
      exact fun hcontra => hne hcontra.symm
    have hdpur : ∀ dl' : List DelRow, d ∈ dl' →
        d ∈ delSetPurged dl' file_id tk.1 := by
      intro dl' hmem
      unfold delSetPurged
      have heqd : (if d.file_id == file_id && d.target_name == tk.1 then
          (⟨d.file_id, d.target_name, d.deleted_at, d.retain_until, d.remote_key, true⟩ : DelRow)
        else d) = d := by
        have : (d.target_name == tk.1) = false := by
          rw [hdt]
          exact beq_eq_false_iff_ne.2 fun hcontra => hne hcontra.symm
        simp [this]
      rw [← heqd]
      exact List.mem_map_of_mem _ hmem
    refine ⟨?_, ?_, ?_⟩
    · intro r' hr'
      exact h1 r' (List.mem_of_mem_filter hr')
    · by_cases hc : t'.retention_days = 0 ∧ env.buildBackendOk tk.1 = true
      · rw [if_pos hc]
        exact ⟨d, hdpur _ (hdkeep _ hd), hdf, hdt, hdk, hdr, hdp⟩
      · rw [if_neg hc]
        exact ⟨d, hdkeep _ hd, hdf, hdt, hdk, hdr, hdp⟩
    · intro h0 hb
      show AgentEffect.remoteDelete tn k ∈
        (if t'.retention_days = 0 ∧ env.buildBackendOk tk.1 = true
         then acc.2 ++ [AgentEffect.remoteDelete tk.1 tk.2] else acc.2)
      by_cases hc : t'.retention_days = 0 ∧ env.buildBackendOk tk.1 = true
      · rw [if_pos hc]
        exact List.mem_append_left _ (h3 h0 hb)
      · rw [if_neg hc]
        exact h3 h0 hb

lemma pds_fold_preserve (env : AgentEnv) (file_id : String)
    (targets : List (String × ReplicationTarget))
    (l : List (String × String)) (tn k : String) (t : ReplicationTarget)
    (hne : ∀ tk ∈ l, tk.1 ≠ tn) :
    ∀ acc : ReplState × List AgentEffect, DeletionOutcome env file_id tn k t acc →
      DeletionOutcome env file_id tn k t
        (l.foldl (processDeletionStep env file_id targets) acc) := by
  induction l with
  | nil => intro acc h; exact h
  | cons tk l ih =>
    intro acc h
    rw [List.foldl_cons]
    exact ih (fun tk' h' => hne tk' (List.mem_cons_of_mem _ h'))
      _ (pds_preserve env file_id targets acc tk tn k t (hne tk (List.mem_cons_self _ _)) h)

lemma rep_names_nodup (rs : List RepRow) (f : String) (h : RepKeysNodup rs) :
    ((rs.filter fun r => r.file_id == f).map fun r => r.target_name).Nodup := by
  induction rs with
  | nil => simp
  | cons r rs ih =>
    unfold RepKeysNodup at h
    rw [List.map_cons, List.nodup_cons] at h
    by_cases hf : r.file_id = f
    · rw [List.filter_cons_of_pos (by simp [hf]), List.map_cons, List.nodup_cons]
      refine ⟨?_, ih h.2⟩
      intro hmem
      rw [List.mem_map] at hmem
      obtain ⟨a, ha, hta⟩ := hmem
      rw [List.mem_filter] at ha
      refine h.1 ?_
      rw [List.mem_map]
      refine ⟨a, ha.1, ?_⟩
      have haf : a.file_id = f := by
        have := ha.2
        simpa using this
      rw [haf, hf, hta]
    · rw [List.filter_cons_of_neg (by simp [hf])]
      exact ih h.2

lemma sweepStep_hit (env : AgentEnv) (targets : List (String × ReplicationTarget))
    (acc : ReplState × List AgentEffect) (f tn k : String) (t : ReplicationTarget)
    (ht : aLookup targets tn = some t) (hb : env.buildBackendOk tn = true)
    (hr : env.remoteDeleteOk tn k = true) :
    sweepStep env targets acc (f, tn, k) =
      (⟨acc.1.replication_state, delSetPurged acc.1.deletion_log f tn,
        acc.1.upload_queue, acc.1.pending_annotations, acc.1.pending_uploads⟩,
       acc.2 ++ [AgentEffect.remoteDelete tn k]) := by
  unfold sweepStep
  rw [ht]
  simp [hb, hr]

lemma sweepStep_dl_keep (env : AgentEnv) (targets : List (String × ReplicationTarget))
    (acc : ReplState × List AgentEffect) (ftk : String × String × String)
    (e : DelRow) (he : e ∈ acc.1.deletion_log)
    (hne : ¬(e.file_id = ftk.1 ∧ e.target_name = ftk.2.1)) :
    e ∈ (sweepStep env targets acc ftk).1.deletion_log := by
  unfold sweepStep
  cases hl : aLookup targets ftk.2.1 with
  | none => exact he
  | some t =>
    by_cases hb : env.buildBackendOk ftk.2.1 = true
    · by_cases hr : env.remoteDeleteOk ftk.2.1 ftk.2.2 = true
      · simp only [hb, hr, if_true]
        show e ∈ delSetPurged acc.1.deletion_log ftk.1 ftk.2.1
        unfold delSetPurged
        have heqd : (if e.file_id == ftk.1 && e.target_name == ftk.2.1 then
            (⟨e.file_id, e.target_name, e.deleted_at, e.retain_until, e.remote_key, true⟩ : DelRow)
          else e) = e := by
          have : (e.file_id == ftk.1 && e.target_name == ftk.2.1) = false := by
            rcases Bool.eq_false_or_eq_true (e.file_id == ftk.1 && e.target_name == ftk.2.1)
              with htr | hfa
            · exact absurd (by simpa using htr) hne
            · exact hfa
          simp [this]
        rw [← heqd]
        exact List.mem_map_of_mem _ he
      · simp only [hb, hr]
        simpa using he
    · simp only [hb]
      simpa using he

lemma sweepStep_eff_keep (env : AgentEnv) (targets : List (String × ReplicationTarget))
    (acc : ReplState × List AgentEffect) (ftk : String × String × String)
    (e : AgentEffect) (he : e ∈ acc.2) :
    e ∈ (sweepStep env targets acc ftk).2 := by
  unfold sweepStep
  cases hl : aLookup targets ftk.2.1 with
  | none => exact he
  | some t =>
    by_cases hb : env.buildBackendOk ftk.2.1 = true
    · by_cases hr : env.remoteDeleteOk ftk.2.1 ftk.2.2 = true
      · simp only [hb, hr, if_true]
        exact List.mem_append_left _ he
      · simp only [hb, hr]
        simpa using List.mem_append_left [AgentEffect.remoteDelete ftk.2.1 ftk.2.2] he
    · simp only [hb]
      simpa using he

lemma sweep_fold_dl_keep (env : AgentEnv) (targets : List (String × ReplicationTarget))
    (l : List (String × String × String)) (e : DelRow)
    (hne : ∀ ftk ∈ l, ¬(e.file_id = ftk.1 ∧ e.target_name = ftk.2.1)) :
    ∀ acc : ReplState × List AgentEffect, e ∈ acc.1.deletion_log →
      e ∈ (l.foldl (sweepStep env targets) acc).1.deletion_log := by
  induction l with
  | nil => intro acc he; exact he
  | cons ftk l ih =>
    intro acc he
    rw [List.foldl_cons]
    exact ih (fun x hx => hne x (List.mem_cons_of_mem _ hx)) _
      (sweepStep_dl_keep env targets acc ftk e he (hne ftk (List.mem_cons_self _ _)))

lemma sweep_fold_eff_keep (env : AgentEnv) (targets : List (String × ReplicationTarget))
    (l : List (String × String × String)) (e : AgentEffect) :
    ∀ acc : ReplState × List AgentEffect, e ∈ acc.2 →
      e ∈ (l.foldl (sweepStep env targets) acc).2 := by
  induction l with
  | nil => intro acc he; exact he
  | cons ftk l ih =>
    intro acc he
    rw [List.foldl_cons]
    exact ih _ (sweepStep_eff_keep env targets acc ftk e he)

lemma sweep_fold_eff_src (env : AgentEnv) (targets : List (String × ReplicationTarget))
    (l : List (String × String × String)) :
    ∀ (acc : ReplState × List AgentEffect) (e : AgentEffect),
      e ∈ (l.foldl (sweepStep env targets) acc).2 →
      e ∈ acc.2 ∨ ∃ ftk ∈ l, e = AgentEffect.remoteDelete ftk.2.1 ftk.2.2 := by
  induction l with
  | nil => intro acc e he; exact Or.inl he
  | cons ftk l ih =>
    intro acc e he
    rw [List.foldl_cons] at he
    rcases ih _ e he with hstep | ⟨ftk', hm, hq⟩
    · have : e ∈ (sweepStep env targets acc ftk).2 → e ∈ acc.2 ∨
          e = AgentEffect.remoteDelete ftk.2.1 ftk.2.2 := by
        intro hin
        unfold sweepStep at hin
        cases hl : aLookup targets ftk.2.1 with
        | none =>
          rw [hl] at hin
          exact Or.inl hin
        | some t =>
          rw [hl] at hin
          by_cases hb : env.buildBackendOk ftk.2.1 = true
          · by_cases hr : env.remoteDeleteOk ftk.2.1 ftk.2.2 = true
            · simp only [hb, hr, if_true] at hin
              have hin2 : e ∈ acc.2 ++ [AgentEffect.remoteDelete ftk.2.1 ftk.2.2] := hin
              rcases List.mem_append.1 hin2 with h | h
              · exact Or.inl h
              · exact Or.inr (List.mem_singleton.1 h)
            · simp only [hb, hr] at hin
              have hin2 : e ∈ acc.2 ++ [AgentEffect.remoteDelete ftk.2.1 ftk.2.2] := by
                simpa using hin
              rcases List.mem_append.1 hin2 with h | h
              · exact Or.inl h
              · exact Or.inr (List.mem_singleton.1 h)
          · simp only [hb] at hin
            exact Or.inl (by simpa using hin)
      rcases this hstep with h | h
      · exact Or.inl h
      · exact Or.inr ⟨ftk, List.mem_cons_self _ _, h⟩
    · exact Or.inr ⟨ftk', List.mem_cons_of_mem _ hm, hq⟩

lemma sweep_deletion_log_eq (env : AgentEnv)
    (targets : List (String × ReplicationTarget)) (st : ReplState) :
    sweep_deletion_log env targets st =
      ((st.deletion_log.filter fun d =>
        d.purged == false && (match d.retain_until with
          | none => true
          | some t => decide (t ≤ env.now))).map
        fun d => (d.file_id, d.target_name, d.remote_key)).foldl
        (sweepStep env targets) (st, []) := rfl

/-- C4: processing a Deleted event moves every replication_state row of the
file into deletion_log with retain_until = now + retention_days * 86400
(null retain_until, an immediate remote delete and purged = 1 when
retention is zero); the deletion sweep only ever deletes remote objects of
unpurged rows whose retain_until is null or has passed (so never before
retain_until); and a sweep running after retain_until deletes the remote
object and marks the row purged. -/
theorem C4_deleted_event_retention_and_sweep
    (env : AgentEnv) (targets : List (String × ReplicationTarget)) :
    (∀ (st : ReplState) (file_id : String) (r : RepRow) (t : ReplicationTarget),
      r ∈ st.replication_state → r.file_id = file_id →
      aLookup targets r.target_name = some t →
      RepKeysNodup st.replication_state →
      DeletionOutcome env file_id r.target_name r.remote_key t
        (process_deletion_event env file_id targets st))
    ∧
    (∀ (st : ReplState) (tn k : String),
      AgentEffect.remoteDelete tn k ∈ (sweep_deletion_log env targets st).2 →
      ∃ d ∈ st.deletion_log, d.target_name = tn ∧ d.remote_key = k ∧
        d.purged = false ∧
        (d.retain_until = none ∨ ∃ T, d.retain_until = some T ∧ T ≤ env.now))
    ∧
    (∀ (st : ReplState) (d : DelRow) (t : ReplicationTarget),
      d ∈ st.deletion_log → d.purged = false →
      (d.retain_until = none ∨ ∃ T, d.retain_until = some T ∧ T ≤ env.now) →
      aLookup targets d.target_name = some t →
      env.buildBackendOk d.target_name = true →
      env.remoteDeleteOk d.target_name d.remote_key = true →
      DelKeysNodup st.deletion_log →
      (⟨d.file_id, d.target_name, d.deleted_at, d.retain_until, d.remote_key, true⟩ : DelRow)
        ∈ (sweep_deletion_log env targets st).1.deletion_log ∧
      AgentEffect.remoteDelete d.target_name d.remote_key
        ∈ (sweep_deletion_log env targets st).2) := by
  refine ⟨?_, ?_, ?_⟩
  · -- (A) the Deleted event itself
    intro st file_id r t hr hrf ht hnodup
    have htk : (r.target_name, r.remote_key) ∈
        ((st.replication_state.filter fun x => x.file_id == file_id).map
          fun x => (x.target_name, x.remote_key)) :=
      List.mem_map_of_mem _ (List.mem_filter.2 ⟨hr, by simp [hrf]⟩)
    obtain ⟨pre, post, heq⟩ := List.append_of_mem htk
    have hnames : (((st.replication_state.filter fun x => x.file_id == file_id).map
        fun x => (x.target_name, x.remote_key)).map Prod.fst).Nodup := by
      rw [List.map_map]
      exact rep_names_nodup st.replication_state file_id hnodup
    rw [heq, List.map_append, List.map_cons] at hnames
    have hnotin := (List.nodup_cons.1 (List.nodup_middle.1 hnames)).1
    have hpost : ∀ tk ∈ post, tk.1 ≠ r.target_name := by
      intro tk hm hc
      refine hnotin (List.mem_append_right _ ?_)
      have hfst : tk.1 ∈ List.map Prod.fst post := List.mem_map_of_mem Prod.fst hm
      rw [hc] at hfst
      exact hfst
    show DeletionOutcome env file_id r.target_name r.remote_key t
      (((st.replication_state.filter fun x => x.file_id == file_id).map
          fun x => (x.target_name, x.remote_key)).foldl
        (processDeletionStep env file_id targets) (st, []))
    rw [heq, List.foldl_append, List.foldl_cons]
    exact pds_fold_preserve env file_id targets post r.target_name r.remote_key t hpost _
      (pds_establish env file_id targets _ r.target_name r.remote_key t ht)
  · -- (B) a sweep only deletes due unpurged rows
    intro st tn k he
    rw [sweep_deletion_log_eq] at he
    have he2 := sweep_fold_eff_src env targets _ _ _ he
    rcases he2 with h | ⟨ftk, hm, hq⟩
    · exact absurd h (List.not_mem_nil _)
    · rw [List.mem_map] at hm
      obtain ⟨d, hdf, hde⟩ := hm
      rw [← hde] at hq
      have hq2 : tn = d.target_name ∧ k = d.remote_key := by
        simpa [AgentEffect.remoteDelete.injEq] using hq
      have hd := List.mem_filter.1 hdf
      have hp := hd.2
      rw [Bool.and_eq_true] at hp
      refine ⟨d, hd.1, hq2.1.symm, hq2.2.symm, by simpa using hp.1, ?_⟩
      cases hru : d.retain_until with
      | none => exact Or.inl rfl
      | some T =>
        have hq3 := hp.2
        rw [hru] at hq3
        exact Or.inr ⟨T, rfl, of_decide_eq_true hq3⟩
  · -- (C) a sweep after retain_until purges the row
    intro st d t hd hpu hdue ht hb hr hnodup
    have hpd : (d.purged == false && (match d.retain_until with
        | none => true
        | some t2 => decide (t2 ≤ env.now))) = true := by
      rw [hpu]
      rcases hdue with h | ⟨T, hT, hle⟩
      · rw [h]; rfl
      · rw [hT]
        simp [hle]
    have hm : (d.file_id, d.target_name, d.remote_key) ∈
        ((st.deletion_log.filter fun d2 =>
          d2.purged == false && (match d2.retain_until with
            | none => true
            | some t2 => decide (t2 ≤ env.now))).map
          fun d2 => (d2.file_id, d2.target_name, d2.remote_key)) :=
      List.mem_map_of_mem _ (List.mem_filter.2 ⟨hd, hpd⟩)
    obtain ⟨pre, post, heq⟩ := List.append_of_mem hm
    have hkeys : (((st.deletion_log.filter fun d2 =>
        d2.purged == false && (match d2.retain_until with
          | none => true
          | some t2 => decide (t2 ≤ env.now))).map
        fun d2 => (d2.file_id, d2.target_name, d2.remote_key)).map
        fun x => (x.1, x.2.1)).Nodup := by
      rw [List.map_map]
      exact List.Nodup.sublist ((List.filter_sublist _).map _) hnodup
    rw [heq, List.map_append, List.map_cons] at hkeys
    have hnotin := (List.nodup_cons.1 (List.nodup_middle.1 hkeys)).1
    have hpostne : ∀ ftk ∈ post, ¬(d.file_id = ftk.1 ∧ d.target_name = ftk.2.1) := by
      intro ftk hmem hc
      refine hnotin (List.mem_append_right _ ?_)
      have heqk : (((d.file_id, d.target_name, d.remote_key).1,
          (d.file_id, d.target_name, d.remote_key).2.1)) = (ftk.1, ftk.2.1) := by
        simp [hc.1, hc.2]
      rw [heqk]
      exact List.mem_map_of_mem _ hmem
    have hprene : ∀ ftk ∈ pre, ¬(d.file_id = ftk.1 ∧ d.target_name = ftk.2.1) := by
      intro ftk hmem hc
      refine hnotin (List.mem_append_left _ ?_)
      have heqk : (((d.file_id, d.target_name, d.remote_key).1,
          (d.file_id, d.target_name, d.remote_key).2.1)) = (ftk.1, ftk.2.1) := by
        simp [hc.1, hc.2]
      rw [heqk]
      exact List.mem_map_of_mem _ hmem
    have hdpre : d ∈ (pre.foldl (sweepStep env targets) (st, [])).1.deletion_log :=
      sweep_fold_dl_keep env targets pre d hprene (st, []) hd
    have hstep := sweepStep_hit env targets (pre.foldl (sweepStep env targets) (st, []))
      d.file_id d.target_name d.remote_key t ht hb hr
    rw [sweep_deletion_log_eq, heq, List.foldl_append, List.foldl_cons, hstep]
    constructor
    · refine sweep_fold_dl_keep env targets post
        ⟨d.file_id, d.target_name, d.deleted_at, d.retain_until, d.remote_key, true⟩
        (fun ftk hmem => hpostne ftk hmem) _ ?_
      show (⟨d.file_id, d.target_name, d.deleted_at, d.retain_until, d.remote_key, true⟩ : DelRow)
        ∈ delSetPurged (pre.foldl (sweepStep env targets) (st, [])).1.deletion_log
            d.file_id d.target_name
      unfold delSetPurged
      have hg : (if d.file_id == d.file_id && d.target_name == d.target_name then
          (⟨d.file_id, d.target_name, d.deleted_at, d.retain_until, d.remote_key, true⟩ : DelRow)
        else d) =
          ⟨d.file_id, d.target_name, d.deleted_at, d.retain_until, d.remote_key, true⟩ := by
        simp
      rw [← hg]
      exact List.mem_map_of_mem _ hdpre
    · refine sweep_fold_eff_keep env targets post _ _ ?_
      show AgentEffect.remoteDelete d.target_name d.remote_key ∈
        (pre.foldl (sweepStep env targets) (st, [])).2 ++
          [AgentEffect.remoteDelete d.target_name d.remote_key]
      exact List.mem_append_right _ (List.mem_singleton.2 rfl)

theorem C4_witness :
    DeletionOutcome envAg "file::a" "T" "k1" (targetT 30 none)
      (process_deletion_event envAg "file::a" [("T", targetT 30 none)]
        ⟨[⟨"file::a", "T", 900, "2024", 5, "k1", none⟩], [], [], [], []⟩) ∧
    (∃ d ∈ ([⟨"file::a", "T", 900, some 500, "k1", false⟩] : List DelRow),
      d.target_name = "T" ∧ d.remote_key = "k1" ∧ d.purged = false ∧
      (d.retain_until = none ∨ ∃ T, d.retain_until = some T ∧ T ≤ envAg.now)) ∧
    ((⟨"file::a", "T", 900, some 500, "k1", true⟩ : DelRow)
       ∈ (sweep_deletion_log envAg [("T", targetT 30 none)]
           ⟨[], [⟨"file::a", "T", 900, some 500, "k1", false⟩], [], [], []⟩).1.deletion_log ∧
     AgentEffect.remoteDelete "T" "k1"
       ∈ (sweep_deletion_log envAg [("T", targetT 30 none)]
           ⟨[], [⟨"file::a", "T", 900, some 500, "k1", false⟩], [], [], []⟩).2) := by
  refine ⟨?_, ?_, ?_⟩
  · exact (C4_deleted_event_retention_and_sweep envAg [("T", targetT 30 none)]).1
      ⟨[⟨"file::a", "T", 900, "2024", 5, "k1", none⟩], [], [], [], []⟩ "file::a"
      ⟨"file::a", "T", 900, "2024", 5, "k1", none⟩ (targetT 30 none)
      (by decide) rfl rfl (by unfold RepKeysNodup; decide)
  · exact (C4_deleted_event_retention_and_sweep envAg [("T", targetT 30 none)]).2.1
      ⟨[], [⟨"file::a", "T", 900, some 500, "k1", false⟩], [], [], []⟩ "T" "k1"
      (by decide)
  · exact (C4_deleted_event_retention_and_sweep envAg [("T", targetT 30 none)]).2.2
      ⟨[], [⟨"file::a", "T", 900, some 500, "k1", false⟩], [], [], []⟩
      ⟨"file::a", "T", 900, some 500, "k1", false⟩ (targetT 30 none)
      (by decide) rfl (Or.inr ⟨500, rfl, by decide⟩) rfl rfl rfl
      (by unfold DelKeysNodup; decide)

lemma queue_upload_mem (q : List QRow) (now : Int) (f t : String) :
    ∃ r ∈ queue_upload q now f t, r.file_id = f ∧ r.target_name = t := by
  unfold queue_upload
  by_cases h : q.any (fun r => r.file_id == f && r.target_name == t) = true
  · rw [if_pos h]
    obtain ⟨r, hr, hp⟩ := List.any_eq_true.1 h
    rw [Bool.and_eq_true] at hp
    exact ⟨r, hr, by simpa using hp.1, by simpa using hp.2⟩
  · rw [if_neg h]
    exact ⟨⟨f, t, now⟩, List.mem_append_right _ (List.mem_singleton.2 rfl), rfl, rfl⟩

lemma processRuleStep_defer (env : AgentEnv) (node_id file_id : String)
    (doc : AgentFileDoc) (targets : List (String × ReplicationTarget))
    (ctx : StepContext) (st : ReplState) (rule : ReplicationRule)
    (target : ReplicationTarget)
    (hsrc : rule.source_node_id = "*" ∨ rule.source_node_id = node_id)
    (hpre2 : (match rule.sourcePathPre with
      | some p => !(doc.export_path.startsWith p)
      | none => false) = false)
    (hmatch : evaluate_steps env.menv rule.steps (parse_file_doc doc) file_id
      rule.default_result ctx env.now = StepResult.Include)
    (ht : aLookup targets rule.target_name = some target)
    (hnew : (match get_replication_state st.replication_state file_id rule.target_name with
      | some s => s.source_mtime == doc.mtimeStr && s.source_size == doc.size
      | none => false) = false)
    (hout : in_schedule_window target.schedule env.localNowMin = false) :
    processRuleStep env node_id file_id doc targets ctx st rule =
      ⟨st.replication_state, st.deletion_log,
       queue_upload st.upload_queue env.now file_id rule.target_name,
       update_annotation_status st.pending_annotations file_id rule.target_name "pending",
       st.pending_uploads⟩ := by
  rcases hsrc with h | h <;>
    simp [processRuleStep, h, hpre2, hmatch, ht, hnew, hout]

lemma drain_singleton (env : AgentEnv) (targets : List (String × ReplicationTarget))
    (st : ReplState) (file_id tn : String) (qa : Int) (doc : AgentFileDoc)
    (rk : String) (ck : Option String) (target : ReplicationTarget)
    (hq : st.upload_queue = [⟨file_id, tn, qa⟩])
    (ht : aLookup targets tn = some target)
    (hin : in_schedule_window target.schedule env.localNowMin = true)
    (hdoc : env.getDocument file_id = some doc)
    (hup : env.uploadResult file_id tn = some (rk, ck)) :
    process_upload_queue env targets st =
      (⟨repUpsert st.replication_state
          ⟨file_id, tn, env.now, doc.mtimeStr, doc.size, rk, ck⟩,
        st.deletion_log, [],
        update_annotation_status st.pending_annotations file_id tn "current",
        st.pending_uploads⟩,
       [AgentEffect.upload file_id tn]) := by
  unfold process_upload_queue
  rw [hq, List.take_of_length_le (by simp), List.map_cons, List.map_nil,
    List.foldl_cons, List.foldl_nil]
  unfold drainStep
  rw [ht]
  simp only [hin, hdoc, hup]
  rw [hq]
  simp [queueDelete]

/-- C5: the schedule window is active iff the local time lies in
[start, end), wrapping midnight when start > end, and always active when
absent; a matching file event for a target outside its window only queues
the (file, target) pair and marks the annotation pending, leaving
replication_state and the staged uploads untouched; and a later queue
drain inside the window uploads the pair, upserts replication_state,
removes the queue row and marks the annotation current. -/
theorem C5_schedule_window_defer_and_drain :
    (∀ n : Nat, in_schedule_window none n = true) ∧
    (∀ s e n : Nat, s ≤ e →
      (in_schedule_window (some (s, e)) n = true ↔ (s ≤ n ∧ n < e))) ∧
    (∀ s e n : Nat, e < s →
      (in_schedule_window (some (s, e)) n = true ↔ (n ≥ s ∨ n < e))) ∧
    (∀ (env : AgentEnv) (node_id file_id : String) (doc : AgentFileDoc)
       (rule : ReplicationRule) (targets : List (String × ReplicationTarget))
       (target : ReplicationTarget) (st : ReplState),
      doc.node_id = node_id →
      (rule.source_node_id = "*" ∨ rule.source_node_id = node_id) →
      rule.sourcePathPre = none →
      evaluate_steps env.menv rule.steps (parse_file_doc doc) file_id
        rule.default_result
        (build_step_context env file_id
          (if file_id.startsWith "file::" then file_id.drop 6 else file_id)
          st.replication_state) env.now = StepResult.Include →
      aLookup targets rule.target_name = some target →
      get_replication_state st.replication_state file_id rule.target_name = none →
      in_schedule_window target.schedule env.localNowMin = false →
      ((∃ r ∈ (process_file_event env node_id file_id doc [rule] targets st).upload_queue,
          r.file_id = file_id ∧ r.target_name = rule.target_name) ∧
       (∃ m, aLookup (process_file_event env node_id file_id doc [rule] targets
            st).pending_annotations file_id = some m ∧
          aLookup m rule.target_name = some "pending") ∧
       (process_file_event env node_id file_id doc [rule] targets st).replication_state
         = st.replication_state ∧
       (process_file_event env node_id file_id doc [rule] targets st).pending_uploads
         = st.pending_uploads)) ∧
    (∀ (env : AgentEnv) (targets : List (String × ReplicationTarget))
       (st : ReplState) (file_id tn : String) (qa : Int) (doc : AgentFileDoc)
       (rk : String) (ck : Option String) (target : ReplicationTarget),
      st.upload_queue = [⟨file_id, tn, qa⟩] →
      aLookup targets tn = some target →
      in_schedule_window target.schedule env.localNowMin = true →
      env.getDocument file_id = some doc →
      env.uploadResult file_id tn = some (rk, ck) →
      process_upload_queue env targets st =
        (⟨repUpsert st.replication_state
            ⟨file_id, tn, env.now, doc.mtimeStr, doc.size, rk, ck⟩,
          st.deletion_log, [],
          update_annotation_status st.pending_annotations file_id tn "current",
          st.pending_uploads⟩,
         [AgentEffect.upload file_id tn])) := by
  refine ⟨?_, ?_, ?_, ?_, ?_⟩
  · intro n; rfl
  · intro s e n h
    show (if s ≤ e then decide (s ≤ n ∧ n < e) else decide (n ≥ s ∨ n < e)) = true ↔ _
    rw [if_pos h]
    exact decide_eq_true_iff
  · intro s e n h
    show (if s ≤ e then decide (s ≤ n ∧ n < e) else decide (n ≥ s ∨ n < e)) = true ↔ _
    rw [if_neg (not_le.2 h)]
    exact decide_eq_true_iff
  · intro env node_id file_id doc rule targets target st hnode hsrc hpre hmatch ht hnew0 hout
    have hpre2 : (match rule.sourcePathPre with
        | some p => !(doc.export_path.startsWith p)
        | none => false) = false := by
      rw [hpre]
    have hnew : (match get_replication_state st.replication_state file_id rule.target_name with
        | some s => s.source_mtime == doc.mtimeStr && s.source_size == doc.size
        | none => false) = false := by
      rw [hnew0]
    have hev : process_file_event env node_id file_id doc [rule] targets st =
        processRuleStep env node_id file_id doc targets
          (build_step_context env file_id
            (if file_id.startsWith "file::" then file_id.drop 6 else file_id)
            st.replication_state) st rule := by
      unfold process_file_event
      rw [if_neg (by simp [hnode])]
      rfl
    rw [hev, processRuleStep_defer env node_id file_id doc targets _ st rule target
      hsrc hpre2 hmatch ht hnew hout]
    refine ⟨queue_upload_mem _ _ _ _, ?_, rfl, rfl⟩
    refine ⟨aInsert ((aLookup st.pending_annotations file_id).getD [])
      rule.target_name "pending", ?_, ?_⟩
    · exact aLookup_aInsert_self _ _ _
    · exact aLookup_aInsert_self _ _ _
  · intro env targets st file_id tn qa doc rk ck target hq ht hin hdoc hup
    exact drain_singleton env targets st file_id tn qa doc rk ck target hq ht hin hdoc hup

theorem C5_witness :
    (in_schedule_window (some (120, 360)) 840 = true ↔ (120 ≤ 840 ∧ 840 < 360)) ∧
    (in_schedule_window (some (1320, 360)) 30 = true ↔ (30 ≥ 1320 ∨ 30 < 360)) ∧
    ((∃ r ∈ (process_file_event envAg "n1" "file::a" docA [ruleR]
        [("T", targetT 30 (some (120, 360)))] ⟨[], [], [], [], []⟩).upload_queue,
        r.file_id = "file::a" ∧ r.target_name = ruleR.target_name) ∧
     (∃ m, aLookup (process_file_event envAg "n1" "file::a" docA [ruleR]
          [("T", targetT 30 (some (120, 360)))]
          ⟨[], [], [], [], []⟩).pending_annotations "file::a" = some m ∧
        aLookup m ruleR.target_name = some "pending") ∧
     (process_file_event envAg "n1" "file::a" docA [ruleR]
        [("T", targetT 30 (some (120, 360)))] ⟨[], [], [], [], []⟩).replication_state = [] ∧
     (process_file_event envAg "n1" "file::a" docA [ruleR]
        [("T", targetT 30 (some (120, 360)))] ⟨[], [], [], [], []⟩).pending_uploads = []) ∧
    (process_upload_queue envAg3am [("T", targetT 30 (some (120, 360)))]
        ⟨[], [], [⟨"file::a", "T", 1000⟩], [("file::a", [("T", "pending")])], []⟩ =
      (⟨repUpsert []
          ⟨"file::a", "T", envAg3am.now, docA.mtimeStr, docA.size, "key-file::a-T", some "ck"⟩,
        [], [],
        update_annotation_status [("file::a", [("T", "pending")])] "file::a" "T" "current",
        []⟩,
       [AgentEffect.upload "file::a" "T"])) := by
  refine ⟨?_, ?_, ?_, ?_⟩
  · exact C5_schedule_window_defer_and_drain.2.1 120 360 840 (by decide)
  · exact C5_schedule_window_defer_and_drain.2.2.1 1320 360 30 (by decide)
  · exact C5_schedule_window_defer_and_drain.2.2.2.1 envAg "n1" "file::a" docA ruleR
      [("T", targetT 30 (some (120, 360)))] (targetT 30 (some (120, 360)))
      ⟨[], [], [], [], []⟩ rfl (Or.inl rfl) rfl rfl rfl rfl (by decide)
  · exact C5_schedule_window_defer_and_drain.2.2.2.2 envAg3am
      [("T", targetT 30 (some (120, 360)))]
      ⟨[], [], [⟨"file::a", "T", 1000⟩], [("file::a", [("T", "pending")])], []⟩
      "file::a" "T" 1000 docA "key-file::a-T" (some "ck") (targetT 30 (some (120, 360)))
      rfl rfl (by decide) rfl (by decide)

lemma processRuleStep_skip (env : AgentEnv) (node_id file_id : String)
    (doc : AgentFileDoc) (targets : List (String × ReplicationTarget))
    (ctx : StepContext) (st : ReplState) (rule : ReplicationRule)
    (h : evaluate_steps env.menv rule.steps (parse_file_doc doc) file_id
      rule.default_result ctx env.now = StepResult.Include)
    (hmr : (match get_replication_state st.replication_state file_id rule.target_name with
      | some s => s.source_mtime == doc.mtimeStr && s.source_size == doc.size
      | none => false) = true) :
    processRuleStep env node_id file_id doc targets ctx st rule = st := by
  unfold processRuleStep
  by_cases h1 : rule.source_node_id ≠ "*" ∧ rule.source_node_id ≠ node_id
  · rw [if_pos h1]
  · rw [if_neg h1]
    by_cases h2 : (match rule.sourcePathPre with
        | some p => !(doc.export_path.startsWith p)
        | none => false) = true
    · rw [if_pos h2]
    · rw [if_neg h2]
      simp only [h, ne_eq, not_true_eq_false, if_false, reduceIte]
      cases hl : aLookup targets rule.target_name with
      | none => rfl
      | some target => simp [hmr]

lemma foldl_ruleskip (env : AgentEnv) (node_id file_id : String)
    (doc : AgentFileDoc) (targets : List (String × ReplicationTarget))
    (ctx : StepContext) (st : ReplState) (rules : List ReplicationRule)
    (hall : ∀ rule ∈ rules,
      evaluate_steps env.menv rule.steps (parse_file_doc doc) file_id
        rule.default_result ctx env.now = StepResult.Include ∧
      (match get_replication_state st.replication_state file_id rule.target_name with
        | some s => s.source_mtime == doc.mtimeStr && s.source_size == doc.size
        | none => false) = true) :
    rules.foldl (processRuleStep env node_id file_id doc targets ctx) st = st := by
  induction rules with
  | nil => rfl
  | cons r rs ih =>
    rw [List.foldl_cons, processRuleStep_skip env node_id file_id doc targets ctx st r
      (hall r (List.mem_cons_self _ _)).1 (hall r (List.mem_cons_self _ _)).2]
    exact ih fun rule hr => hall rule (List.mem_cons_of_mem _ hr)

lemma repUpsert_nodup (rs : List RepRow) (row : RepRow) (h : RepKeysNodup rs) :
    RepKeysNodup (repUpsert rs row) := by
  unfold RepKeysNodup repUpsert
  rw [List.map_append]
  refine List.Nodup.append ?_ (by simp) ?_
  · exact List.Nodup.sublist ((List.filter_sublist _).map _) h
  · intro a ha hb
    rw [List.mem_map] at ha
    obtain ⟨r, hr, hra⟩ := ha
    have hp := (List.mem_filter.1 hr).2
    simp only [Bool.not_eq_true', Bool.and_eq_false_iff, beq_eq_false_iff_ne, ne_eq] at hp
    rw [List.map_cons, List.map_nil, List.mem_singleton] at hb
    rw [← hra] at hb
    rcases hp with hp | hp
    · exact hp (congrArg Prod.fst hb)
    · exact hp (congrArg Prod.snd hb)

lemma drainStep_nodup (env : AgentEnv) (targets : List (String × ReplicationTarget))
    (acc : ReplState × List AgentEffect) (ft : String × String)
    (h : RepKeysNodup acc.1.replication_state) :
    RepKeysNodup (drainStep env targets acc ft).1.replication_state := by
  unfold drainStep
  cases hl : aLookup targets ft.2 with
  | none => exact h
  | some target =>
    by_cases hw : in_schedule_window target.schedule env.localNowMin = true
    · cases hd : env.getDocument ft.1 with
      | none => simpa [hw, hd] using h
      | some doc =>
        cases hu : env.uploadResult ft.1 ft.2 with
        | none => simpa [hw, hd, hu] using h
        | some rkck =>
          simp only [hw, hd, hu, not_true_eq_false, if_false]
          exact repUpsert_nodup _ _ h
    · simpa [hw] using h

lemma drain_fold_nodup (env : AgentEnv) (targets : List (String × ReplicationTarget))
    (l : List (String × String)) :
    ∀ acc : ReplState × List AgentEffect, RepKeysNodup acc.1.replication_state →
      RepKeysNodup ((l.foldl (drainStep env targets) acc)).1.replication_state := by
  induction l with
  | nil => intro acc h; exact h
  | cons ft l ih =>
    intro acc h
    rw [List.foldl_cons]
    exact ih _ (drainStep_nodup env targets acc ft h)

/-- C6: when the replication_state row of a (file, target) pair already
records the event's mtime and size, reprocessing the same Modified event
skips every rule and leaves the state unchanged (no second upload is
queued or staged); and the keyed upsert discipline keeps at most one
replication_state row per (file, target) pair, both at a single upsert and
across a whole queue drain. -/
theorem C6_modified_twice_idempotent :
    (∀ (env : AgentEnv) (node_id file_id : String) (doc : AgentFileDoc)
       (rules : List ReplicationRule) (targets : List (String × ReplicationTarget))
       (st : ReplState),
      (∀ rule ∈ rules,
        evaluate_steps env.menv rule.steps (parse_file_doc doc) file_id
          rule.default_result
          (build_step_context env file_id
            (if file_id.startsWith "file::" then file_id.drop 6 else file_id)
            st.replication_state) env.now = StepResult.Include ∧
        (match get_replication_state st.replication_state file_id rule.target_name with
          | some s => s.source_mtime == doc.mtimeStr && s.source_size == doc.size
          | none => false) = true) →
      process_file_event env node_id file_id doc rules targets st = st) ∧
    (∀ (rs : List RepRow) (row : RepRow), RepKeysNodup rs →
      RepKeysNodup (repUpsert rs row)) ∧
    (∀ (env : AgentEnv) (targets : List (String × ReplicationTarget)) (st : ReplState),
      RepKeysNodup st.replication_state →
      RepKeysNodup (process_upload_queue env targets st).1.replication_state) := by
  refine ⟨?_, repUpsert_nodup, ?_⟩
  · intro env node_id file_id doc rules targets st hall
    unfold process_file_event
    by_cases hn : doc.node_id ≠ node_id
    · rw [if_pos hn]
    · rw [if_neg hn]
      exact foldl_ruleskip env node_id file_id doc targets _ st rules hall
  · intro env targets st h
    exact drain_fold_nodup env targets _ (st, []) h

theorem C6_witness :
    process_file_event envAg3am "n1" "file::a" docA [ruleR]
      [("T", targetT 30 (some (120, 360)))]
      ⟨[⟨"file::a", "T", 1000, "2024", 5, "key-file::a-T", some "ck"⟩], [], [],
        [("file::a", [("T", "current")])], []⟩
      = ⟨[⟨"file::a", "T", 1000, "2024", 5, "key-file::a-T", some "ck"⟩], [], [],
          [("file::a", [("T", "current")])], []⟩ ∧
    RepKeysNodup (repUpsert [⟨"file::a", "T", 1000, "2024", 5, "k1", none⟩]
      ⟨"file::a", "T", 2000, "2025", 6, "k2", none⟩) ∧
    RepKeysNodup (process_upload_queue envAg3am [("T", targetT 30 (some (120, 360)))]
      ⟨[], [], [⟨"file::a", "T", 1000⟩], [], []⟩).1.replication_state := by
  refine ⟨?_, ?_, ?_⟩
  · exact C6_modified_twice_idempotent.1 envAg3am "n1" "file::a" docA [ruleR]
      [("T", targetT 30 (some (120, 360)))]
      ⟨[⟨"file::a", "T", 1000, "2024", 5, "key-file::a-T", some "ck"⟩], [], [],
        [("file::a", [("T", "current")])], []⟩
      (by decide)
  · exact C6_modified_twice_idempotent.2.1
      [⟨"file::a", "T", 1000, "2024", 5, "k1", none⟩]
      ⟨"file::a", "T", 2000, "2025", 6, "k2", none⟩
      (by unfold RepKeysNodup; decide)
  · exact C6_modified_twice_idempotent.2.2 envAg3am [("T", targetT 30 (some (120, 360)))]
      ⟨[], [], [⟨"file::a", "T", 1000⟩], [], []⟩
      (by unfold RepKeysNodup; decide)
